import Mathlib

/-! Shallow embedding of the condition-driven priority / maintenance-trigger
pipeline and the depot pathfinder of the AI-Kochi-Metro-Induction repository.
Python floats are modelled as exact rationals; Python "round(x, 1)"
(round-half-to-even) is modelled by `round1`. -/

/-- Python round-to-integer (banker's rounding, half goes to the even integer). -/
def pyRound (x : ℚ) : ℤ :=
  if x - ⌊x⌋ = 1/2 then (if ⌊x⌋ % 2 = 0 then ⌊x⌋ else ⌊x⌋ + 1) else round x

/-- Python round(x, 1): round to one decimal place. -/
def round1 (x : ℚ) : ℚ := (pyRound (x * 10) : ℚ) / 10

/-- Severity lookup `sev_map.get(severity, 40)` from `compute_priority`
(`priority.py`); a label outside the table falls back to 40 (Medium). -/
def sev_val (severity : String) : ℚ :=
  if severity = "Low" then 10
  else if severity = "Medium" then 40
  else if severity = "High" then 70
  else if severity = "Critical" then 100
  else 40

/-- `compute_priority` from `priority.py` (the class method in
`job_card_priority_integration.py` is identical), with weights
W1, W2, W3, W4 = 0.45, 0.2, 0.15, 0.2. -/
def compute_priority (cond_score : ℚ) (severity : String)
    (criticality time_since_maint : ℚ) : ℚ :=
  round1 (0.45 * (100 - cond_score) + 0.2 * criticality +
    0.15 * time_since_maint + 0.2 * sev_val severity)

/-- `compute_condition_score` from `realtime_consumer.py`; the feature vector is
(vib_rms, bearing_temp, motor_temp, door_motor_current). -/
def compute_condition_score (is_anomaly : Bool) (vib btemp mtemp dcurr : ℚ) : ℚ :=
  if is_anomaly then 20
  else max 0 (min 100 (round1 (100 -
    ((vib * 1000) + max 0 (btemp - 50) * 1.2 + max 0 (mtemp - 55) * 0.8))))

/-- `map_severity` from `realtime_consumer.py`. -/
def map_severity (score : ℚ) : String :=
  if score > 75 then "Low"
  else if score > 50 then "Medium"
  else if score > 30 then "High"
  else "Critical"

/-- C2: for every condition score in [0,100], severity label in
{Low, Medium, High, Critical}, criticality and time since maintenance, the
computed urgency equals 0.45*(100 - cond) + 0.20*criticality + 0.15*time +
0.20*severity_value with severity mapped Low 10 / Medium 40 / High 70 /
Critical 100, rounded to one decimal place at computation time; and the inputs
health 90, severity Low, criticality 20, time 5 give 11.25 before rounding. -/
theorem compute_priority_formula (cond crit tsm : ℚ)
    (h0 : 0 ≤ cond) (h1 : cond ≤ 100) (sev : String)
    (hs : sev ∈ ["Low", "Medium", "High", "Critical"]) :
    compute_priority cond sev crit tsm =
      round1 (0.45 * (100 - cond) + 0.2 * crit + 0.15 * tsm +
        0.2 * (if sev = "Low" then (10 : ℚ) else if sev = "Medium" then 40
               else if sev = "High" then 70 else 100)) ∧
    0.45 * (100 - 90) + 0.2 * 20 + 0.15 * 5 + 0.2 * sev_val "Low" = (11.25 : ℚ) := by
  constructor
  · fin_cases hs <;> simp [compute_priority, sev_val]
  · norm_num [sev_val]

/-- Witness for C2 at cond = 90, severity Low, criticality 20, time 5. -/
theorem compute_priority_formula_witness :
    compute_priority 90 "Low" 20 5 =
      round1 (0.45 * (100 - 90) + 0.2 * 20 + 0.15 * 5 +
        0.2 * (if "Low" = "Low" then (10 : ℚ) else if "Low" = "Medium" then 40
               else if "Low" = "High" then 70 else 100)) ∧
    0.45 * (100 - 90) + 0.2 * 20 + 0.15 * 5 + 0.2 * sev_val "Low" = (11.25 : ℚ) :=
  compute_priority_formula 90 20 5 (by norm_num) (by norm_num) "Low" (by simp)

/-- C10: a severity label outside {Low, Medium, High, Critical} (misspelling,
wrong case, empty string) is not rejected: `compute_priority` silently
substitutes the Medium value 40 and scores as if severity were Medium. -/
theorem compute_priority_unknown_severity (cond crit tsm : ℚ) (sev : String)
    (h : sev ∉ ["Low", "Medium", "High", "Critical"]) :
    compute_priority cond sev crit tsm = compute_priority cond "Medium" crit tsm := by
  simp only [List.mem_cons, List.not_mem_nil, or_false, not_or] at h
  obtain ⟨h1, h2, h3, h4⟩ := h
  simp [compute_priority, sev_val, h1, h2, h3, h4]

/-- Witness for C10 at the lower-case label "low". -/
theorem compute_priority_unknown_severity_witness :
    compute_priority 90 "low" 20 5 = compute_priority 90 "Medium" 20 5 :=
  compute_priority_unknown_severity 90 20 5 "low" (by simp)

/-- C3: with the anomaly flag set the health score is the fixed value 20 for
all feature values; otherwise it is 100 minus a weighted penalty of vibration
magnitude and of bearing- and motor-temperature excesses over their baselines
(each excess clamped at zero), and the result always lies in [0,100]. -/
theorem compute_condition_score_spec :
    (∀ v b m d : ℚ, compute_condition_score true v b m d = 20) ∧
    (∀ v b m d : ℚ, compute_condition_score false v b m d =
      max 0 (min 100 (round1 (100 -
        (1000 * v + 1.2 * max 0 (b - 50) + 0.8 * max 0 (m - 55)))))) ∧
    (∀ (a : Bool) (v b m d : ℚ), 0 ≤ compute_condition_score a v b m d ∧
      compute_condition_score a v b m d ≤ 100) := by
  refine ⟨fun v b m d => rfl, fun v b m d => ?_, fun a v b m d => ?_⟩
  · have h : v * 1000 + max 0 (b - 50) * 1.2 + max 0 (m - 55) * 0.8 =
        1000 * v + 1.2 * max 0 (b - 50) + 0.8 * max 0 (m - 55) := by ring
    simp only [compute_condition_score, Bool.false_eq_true, if_false, h]
  · cases a
    · simp only [compute_condition_score, Bool.false_eq_true, if_false]
      exact ⟨le_max_left 0 _, max_le (by norm_num) (min_le_left 100 _)⟩
    · simp only [compute_condition_score, if_true]
      norm_num

/-- C4: severity is a pure step function of the health score with
exclusive-lower / inclusive-upper boundaries: above 75 Low, (50, 75] Medium,
(30, 50] High, at most 30 Critical. -/
theorem map_severity_steps (s : ℚ) :
    (75 < s → map_severity s = "Low") ∧
    (50 < s → s ≤ 75 → map_severity s = "Medium") ∧
    (30 < s → s ≤ 50 → map_severity s = "High") ∧
    (s ≤ 30 → map_severity s = "Critical") := by
  refine ⟨fun h => ?_, fun h h' => ?_, fun h h' => ?_, fun h => ?_⟩
  · simp [map_severity, h]
  · have n1 : ¬ (75 < s) := not_lt.mpr h'
    simp [map_severity, n1, h]
  · have n1 : ¬ (75 < s) := not_lt.mpr (by linarith)
    have n2 : ¬ (50 < s) := not_lt.mpr h'
    simp [map_severity, n1, n2, h]
  · have n1 : ¬ (75 < s) := not_lt.mpr (by linarith)
    have n2 : ¬ (50 < s) := not_lt.mpr (by linarith)
    have n3 : ¬ (30 < s) := not_lt.mpr h
    simp [map_severity, n1, n2, n3]

/-- Witness for C4 at score 80 (Low band). -/
theorem map_severity_steps_witness : map_severity 80 = "Low" :=
  (map_severity_steps 80).1 (by norm_num)

/-- One per-coach record as assembled in `on_message` of `priority.py`
(also the values stored in `coach_data`). -/
structure PrEntry where
  coach_id : String
  condition_score : ℚ
  fault_severity : String
  criticality : ℚ
  time_since_maint : ℚ
  priority : ℚ
deriving DecidableEq

/-- The payload fields of the work order posted by `maybe_create_job_card`
that carry logic (asset and the 1..5 mapped priority); the description and
status strings are presentational and omitted. -/
structure WorkOrder where
  assetnum : String
  priority : ℤ
deriving DecidableEq

/-- Function `maybe_create_job_card` from `priority.py`: nothing is emitted when
the entry's priority is below the threshold, otherwise a work order with
priority max(1, min(5, int(6 - priority // 20))) is posted. -/
def maybe_create_job_card (threshold : ℚ) (entry : PrEntry) : Option WorkOrder :=
  if entry.priority < threshold then none
  else some { assetnum := entry.coach_id
              priority := max 1 (min 5 (6 - ⌊entry.priority / 20⌋)) }

/-- Work orders emitted over a series of evaluations for one asset: one
`maybe_create_job_card` call per arriving entry, exactly as `on_message` calls
it after each `compute_priority` (`job_card_priority_integration.py` guards the
same way with `priority >= PRIORITY_THRESHOLD`). -/
def emitted_work_orders (threshold : ℚ) (series : List PrEntry) : List WorkOrder :=
  series.filterMap (maybe_create_job_card threshold)

/-- An entry for one fixed coach with a given urgency score. -/
def entryK (p : ℚ) : PrEntry :=
  { coach_id := "K1", condition_score := 50, fault_severity := "High"
    criticality := 70, time_since_maint := 40, priority := p }

/-- Counterexample to C1: the urgency series 0, 80, 80 for one asset crosses
the threshold 70 upward once and stays above it for one further evaluation,
yet two work orders are emitted, not one: the trigger has no per-asset
episode state. -/
theorem maintenance_trigger_not_edge_triggered_cex :
    (entryK 0).priority < 70 ∧ 70 ≤ (entryK 80).priority ∧
    (emitted_work_orders 70 [entryK 0, entryK 80, entryK 80]).length = 2 ∧
    (2 : ℕ) ≠ 1 := by
  refine ⟨by norm_num [entryK], by norm_num [entryK], ?_, by norm_num⟩
  decide

/-- C1 amended: the trigger is level-triggered, not edge-triggered: every
evaluation whose urgency is at or above the threshold emits a work order, so an
episode that stays above the threshold for K further evaluations emits K + 1
requests (and each above-threshold evaluation of an up-down-up series emits
one). -/
theorem maintenance_trigger_level_triggered (threshold : ℚ) (series : List PrEntry) :
    (emitted_work_orders threshold series).length =
      series.countP (fun e => threshold ≤ e.priority) := by
  induction series with
  | nil => rfl
  | cons e rest ih =>
    by_cases h : e.priority < threshold
    · have hc : ¬ threshold ≤ e.priority := not_le.mpr h
      simp [emitted_work_orders, maybe_create_job_card, h, hc] at ih ⊢
      exact ih
    · have hc : threshold ≤ e.priority := not_lt.mp h
      simp [emitted_work_orders, maybe_create_job_card, h, hc] at ih ⊢
      exact ih

/-- Stable insertion of an entry into a descending-priority list: the new
entry goes before the first strictly smaller-or-tied... it goes before the
first element whose priority it reaches, so later-inserted equal priorities
stay behind earlier ones (Python sort stability). -/
def insert_ranked (e : PrEntry) : List PrEntry → List PrEntry
  | [] => [e]
  | x :: xs => if x.priority ≤ e.priority then e :: x :: xs else x :: insert_ranked e xs

/-- The ranking of `publish_priorities` (`priority.py`):
sorted(coach_data.values(), key priority, reverse=True). Python's sort is
stable, so equal priorities keep the dict's insertion order; the state is the
list of entries in insertion order and the sort is a stable insertion sort. -/
def ranked_view : List PrEntry → List PrEntry
  | [] => []
  | x :: xs => insert_ranked x (ranked_view xs)

/-- Entry for asset A with urgency 50. -/
def entryA : PrEntry :=
  { coach_id := "A", condition_score := 60, fault_severity := "Medium"
    criticality := 50, time_since_maint := 10, priority := 50 }

/-- Entry for asset B with the same urgency 50. -/
def entryB : PrEntry :=
  { coach_id := "B", condition_score := 60, fault_severity := "Medium"
    criticality := 50, time_since_maint := 10, priority := 50 }

/-- Two states holding the same set of (asset, urgency) entries but in
different insertion orders. -/
def stateBA : List PrEntry := [entryB, entryA]

/-- The other insertion order of the same two entries. -/
def stateAB : List PrEntry := [entryA, entryB]

/-- Counterexample to C5: two states with the same set of entries (a
permutation of one another) whose rankings differ, because the tie at priority
50 is broken by insertion order, not by asset ID. -/
theorem ranked_view_order_dependent_cex :
    stateBA.Perm stateAB ∧ ranked_view stateBA ≠ ranked_view stateAB := by
  constructor
  · exact List.Perm.swap entryA entryB []
  · decide

theorem insert_ranked_perm (e : PrEntry) (l : List PrEntry) :
    (insert_ranked e l).Perm (e :: l) := by
  induction l with
  | nil => exact List.Perm.refl _
  | cons x xs ih =>
    by_cases h : x.priority ≤ e.priority
    · rw [insert_ranked, if_pos h]
    · rw [insert_ranked, if_neg h]
      exact (ih.cons x).trans (List.Perm.swap e x xs)

theorem insert_ranked_pairwise (e : PrEntry) (l : List PrEntry)
    (h : l.Pairwise (fun a b => b.priority ≤ a.priority)) :
    (insert_ranked e l).Pairwise (fun a b => b.priority ≤ a.priority) := by
  induction l with
  | nil => simp [insert_ranked]
  | cons x xs ih =>
    rw [List.pairwise_cons] at h
    by_cases hx : x.priority ≤ e.priority
    · rw [insert_ranked, if_pos hx]
      refine List.Pairwise.cons ?_ (List.Pairwise.cons h.1 h.2)
      intro y hy
      rcases List.mem_cons.mp hy with rfl | hy'
      · exact hx
      · exact le_trans (h.1 y hy') hx
    · rw [insert_ranked, if_neg hx]
      refine List.Pairwise.cons ?_ (ih h.2)
      intro y hy
      have : y ∈ e :: xs := (insert_ranked_perm e xs).subset hy
      rcases List.mem_cons.mp this with rfl | hy'
      · exact le_of_lt (not_le.mp hx)
      · exact h.1 y hy'

/-- C5 amended: the ranked list is a permutation of the per-asset state sorted
by urgency descending; ties are broken by the state's insertion order (stable
sort), so identical states (same entries in the same insertion order) always
rank identically, but states differing only in the insertion order of
equal-urgency assets may rank differently. -/
theorem ranked_view_sorted (state : List PrEntry) :
    (ranked_view state).Pairwise (fun a b => b.priority ≤ a.priority) ∧
    (ranked_view state).Perm state := by
  induction state with
  | nil => exact ⟨List.Pairwise.nil, List.Perm.refl _⟩
  | cons x xs ih =>
    refine ⟨insert_ranked_pairwise x _ ih.1, ?_⟩
    exact (insert_ranked_perm x (ranked_view xs)).trans (ih.2.cons x)

/-- A train as in `optimization_engine.py` (class Train); the fields that carry
decision logic. Status and decision values are the literal strings the source
assigns. -/
structure Train where
  id : String
  mileage : ℚ
  is_branded : Bool
  needs_cleaning : Bool
  failure_probability : ℚ
  health_status : String
  decision : String
deriving DecidableEq

/-- Per-train step of `run_predictive_maintenance`: a failure probability above
the 0.6 risk threshold marks the train "At Risk" (the model's probability is
the train's stored failure_probability). -/
def flag_one (t : Train) : Train :=
  if (0.6 : ℚ) < t.failure_probability then { t with health_status := "At Risk" } else t

/-- The flagging pass of `run_predictive_maintenance` over the fleet. -/
def flag_at_risk (fleet : List Train) : List Train := fleet.map flag_one

/-- Rule 1 of `run_induction_planner`: At Risk trains get Needs Maintenance. -/
def rule1_one (t : Train) : Train :=
  if t.health_status = "At Risk" then { t with decision := "Needs Maintenance" } else t

/-- Rule 1 applied to the fleet. -/
def rule_maintenance (fleet : List Train) : List Train := fleet.map rule1_one

/-- Rule 2 of `run_induction_planner`: branded trains not already Needs
Maintenance must run. The source iterates the branded trains sorted by
failure probability, but the update of each train depends only on that train,
so the iteration order is irrelevant and the pass is a map. -/
def rule2_one (t : Train) : Train :=
  if t.is_branded then
    (if t.decision = "Needs Maintenance" then t else { t with decision := "Run (Branding)" })
  else t

/-- Rule 2 applied to the fleet. -/
def rule_branding (fleet : List Train) : List Train := fleet.map rule2_one

/-- Boolean prefix test on character lists. -/
def strPrefB : List Char → List Char → Bool
  | [], _ => true
  | _ :: _, [] => false
  | a :: as, b :: bs => a = b && strPrefB as bs

/-- Boolean contiguous-substring test on character lists. -/
def strInfixB : List Char → List Char → Bool
  | needle, [] => strPrefB needle []
  | needle, b :: t => strPrefB needle (b :: t) || strInfixB needle t

/-- Python `"Run" in train.decision`. -/
def is_run_decision (d : String) : Bool := strInfixB "Run".data d.data

/-- The Standby trains sorted by ascending (failure_probability, mileage):
stable insertion used by the sort below. -/
def insert_by_risk (e : Train) : List Train → List Train
  | [] => [e]
  | x :: xs =>
    if e.failure_probability < x.failure_probability ∨
        (e.failure_probability = x.failure_probability ∧ e.mileage ≤ x.mileage)
    then e :: x :: xs else x :: insert_by_risk e xs

/-- Stable sort by ascending (failure_probability, mileage), modelling
`eligible_trains.sort(key failure_probability, mileage)`. -/
def sort_by_risk : List Train → List Train
  | [] => []
  | x :: xs => insert_by_risk x (sort_by_risk xs)

/-- Rule 3 eligibility list: trains still Standby, sorted by (risk, mileage). -/
def eligible_sorted (fleet : List Train) : List Train :=
  sort_by_risk (fleet.filter (fun t => t.decision = "Standby"))

/-- Rule 3 free slots: SERVICE_REQUIREMENT (18) minus the trains already
decided to Run, clamped at zero as Python's empty range does. -/
def slots_to_fill (fleet : List Train) : ℕ :=
  ((18 : ℤ) - (fleet.filter (fun t => is_run_decision t.decision)).length).toNat

/-- The ids of the trains rule 3 promotes to Run (Mileage Balance). -/
def chosen_ids (fleet : List Train) : List String :=
  ((eligible_sorted fleet).take
    (min (slots_to_fill fleet) (eligible_sorted fleet).length)).map Train.id

/-- Per-train step of rule 3. Python mutates the selected Train objects in
place; with distinct train ids (the fleet is a dict keyed by id) this equals
marking the selected ids. -/
def rule3_one (chosen : List String) (t : Train) : Train :=
  if t.id ∈ chosen then { t with decision := "Run (Mileage Balance)" } else t

/-- Rule 3 applied to the fleet. -/
def rule_mileage (fleet : List Train) : List Train :=
  fleet.map (rule3_one (chosen_ids fleet))

/-- `run_induction_planner` from `optimization_engine.py`: the three decision
rules in precedence order. -/
def run_induction_planner (fleet : List Train) : List Train :=
  rule_mileage (rule_branding (rule_maintenance fleet))

theorem flag_one_fp (t : Train) : (flag_one t).failure_probability = t.failure_probability := by
  unfold flag_one; split <;> rfl

theorem rule1_one_fp (t : Train) : (rule1_one t).failure_probability = t.failure_probability := by
  unfold rule1_one; split <;> rfl

theorem rule2_one_fp (t : Train) : (rule2_one t).failure_probability = t.failure_probability := by
  unfold rule2_one; split <;> [skip; rfl]; split <;> rfl

theorem rule3_one_fp (c : List String) (t : Train) :
    (rule3_one c t).failure_probability = t.failure_probability := by
  unfold rule3_one; split <;> rfl

theorem flag_one_id (t : Train) : (flag_one t).id = t.id := by
  unfold flag_one; split <;> rfl

theorem rule1_one_id (t : Train) : (rule1_one t).id = t.id := by
  unfold rule1_one; split <;> rfl

theorem rule2_one_id (t : Train) : (rule2_one t).id = t.id := by
  unfold rule2_one; split <;> [skip; rfl]; split <;> rfl

theorem planner_ids (fleet : List Train) :
    ((rule_branding (rule_maintenance (flag_at_risk fleet))).map Train.id) =
      fleet.map Train.id := by
  unfold rule_branding rule_maintenance flag_at_risk
  rw [List.map_map, List.map_map, List.map_map]
  apply List.map_congr_left
  intro a _
  show (rule2_one (rule1_one (flag_one a))).id = a.id
  rw [rule2_one_id, rule1_one_id, flag_one_id]

theorem insert_by_risk_perm (e : Train) (l : List Train) :
    (insert_by_risk e l).Perm (e :: l) := by
  induction l with
  | nil => exact List.Perm.refl _
  | cons x xs ih =>
    unfold insert_by_risk
    split
    · exact List.Perm.refl _
    · exact (ih.cons x).trans (List.Perm.swap e x xs)

theorem sort_by_risk_perm (l : List Train) : (sort_by_risk l).Perm l := by
  induction l with
  | nil => exact List.Perm.refl _
  | cons x xs ih => exact (insert_by_risk_perm x (sort_by_risk xs)).trans (ih.cons x)

theorem chosen_ids_standby {fleet : List Train} {i : String} (h : i ∈ chosen_ids fleet) :
    ∃ u ∈ fleet, u.decision = "Standby" ∧ u.id = i := by
  unfold chosen_ids at h
  obtain ⟨u, hu, rfl⟩ := List.mem_map.mp h
  have hu1 : u ∈ eligible_sorted fleet := List.take_subset _ _ hu
  have hu2 : u ∈ fleet.filter (fun t => t.decision = "Standby") :=
    (sort_by_risk_perm _).subset hu1
  have hu3 := List.mem_filter.mp hu2
  exact ⟨u, hu3.1, by simpa using hu3.2, rfl⟩

/-- C9: a train whose failure probability exceeds the 0.6 risk threshold is
flagged At Risk and is never given a Run decision: rule 1 assigns it Needs
Maintenance, rule 2 skips trains already Needs Maintenance, and rule 3 only
promotes trains still Standby. The fleet is keyed by train id (ids distinct). -/
theorem at_risk_never_runs (fleet : List Train)
    (hids : (fleet.map Train.id).Nodup) (t : Train)
    (ht : t ∈ run_induction_planner (flag_at_risk fleet))
    (hrisk : (0.6 : ℚ) < t.failure_probability) :
    t.decision = "Needs Maintenance" ∧ is_run_decision t.decision = false := by
  have ht' := ht
  unfold run_induction_planner rule_mileage at ht
  obtain ⟨t3, ht3, heq3⟩ := List.mem_map.mp ht
  have ht3F : t3 ∈ rule_branding (rule_maintenance (flag_at_risk fleet)) := ht3
  unfold rule_branding at ht3
  obtain ⟨t2, ht2, heq2⟩ := List.mem_map.mp ht3
  unfold rule_maintenance at ht2
  obtain ⟨t1, ht1, heq1⟩ := List.mem_map.mp ht2
  unfold flag_at_risk at ht1
  obtain ⟨t0, ht0, heq0⟩ := List.mem_map.mp ht1
  have hfp : t.failure_probability = t0.failure_probability := by
    rw [← heq3, ← heq2, ← heq1, ← heq0, rule3_one_fp, rule2_one_fp, rule1_one_fp, flag_one_fp]
  have h0 : (0.6 : ℚ) < t0.failure_probability := hfp ▸ hrisk
  have h1 : t1.health_status = "At Risk" := by
    rw [← heq0]; unfold flag_one; rw [if_pos h0]
  have h2 : t2.decision = "Needs Maintenance" := by
    rw [← heq1]; unfold rule1_one; rw [if_pos h1]
  have h3 : t3 = t2 := by
    rw [← heq2]; simp [rule2_one, h2]
  have h3d : t3.decision = "Needs Maintenance" := h3 ▸ h2
  have hnotin : t3.id ∉ chosen_ids (rule_branding (rule_maintenance (flag_at_risk fleet))) := by
    intro hin
    obtain ⟨u, hu, hustd, huid⟩ := chosen_ids_standby hin
    have hids3 : ((rule_branding (rule_maintenance (flag_at_risk fleet))).map Train.id).Nodup := by
      rw [planner_ids]; exact hids
    have : u = t3 := List.inj_on_of_nodup_map hids3 hu ht3F huid
    rw [this, h3d] at hustd
    exact absurd hustd (by decide)
  have htt : t = t3 := by
    rw [← heq3]; unfold rule3_one; rw [if_neg hnotin]
  rw [htt, h3d]
  exact ⟨rfl, by decide⟩

/-- Witness for C9: a one-train fleet over the risk threshold is decided
Needs Maintenance. -/
theorem at_risk_never_runs_witness :
    ({ id := "T1", mileage := 10000, is_branded := true, needs_cleaning := false
       failure_probability := 0.9, health_status := "Healthy"
       decision := "Standby" } : Train).decision = "Standby" ∧
    ∀ t ∈ run_induction_planner (flag_at_risk
      [{ id := "T1", mileage := 10000, is_branded := true, needs_cleaning := false
         failure_probability := 0.9, health_status := "Healthy"
         decision := "Standby" }]),
      (0.6 : ℚ) < t.failure_probability →
      t.decision = "Needs Maintenance" ∧ is_run_decision t.decision = false :=
  ⟨rfl, fun t ht hr => at_risk_never_runs _ (by decide) t ht hr⟩

/-- A depot track: id plus the optional distance_metres attribute read by the
pathfinder. -/
structure Track where
  trackId : String
  distance_metres : Option ℚ
deriving DecidableEq

/-- A depot switch: id and the track ids it connects. -/
structure Switch where
  switchId : String
  connectsTracks : List String
deriving DecidableEq

/-- The parts of the depot JSON that `find_path` / `find_efficient_path` read. -/
structure Depot where
  tracks : List Track
  switches : List Switch

/-- Membership in the constructed graph: both pathfinders create a key for
every track id occurring in some switch's connectsTracks. -/
def graphMem (depot : Depot) (t : String) : Prop :=
  ∃ sw ∈ depot.switches, t ∈ sw.connectsTracks

instance (depot : Depot) (t : String) : Decidable (graphMem depot t) :=
  List.decidableBEx _ depot.switches

/-- Edges contributed by one switch for source track t, as built by
`find_path` (`depot_manager.py`): one (switchId, other) pair per occurrence of
t in connectsTracks and per other entry distinct from t, in list order. -/
def adjOfSwitch (sw : Switch) (t : String) : List (String × String) :=
  (sw.connectsTracks.filter (fun x => x = t)).flatMap (fun _ =>
    (sw.connectsTracks.filter (fun x => x ≠ t)).map (fun n => (sw.switchId, n)))

/-- The adjacency list graph[t] built by `find_path`. -/
def adj (depot : Depot) (t : String) : List (String × String) :=
  depot.switches.flatMap (fun sw => adjOfSwitch sw t)

/-- Python `track_map.get(track_id, {}).get("distance_metres", 1)`; the dict
comprehension keeps the last track with a given id, hence the reversed find. -/
def track_cost (depot : Depot) (t : String) : ℚ :=
  match depot.tracks.reverse.find? (fun tr => tr.trackId = t) with
  | some tr => tr.distance_metres.getD 1
  | none => 1

/-- Weighted edges contributed by one switch for source track t, as built by
`find_efficient_path`: (cost, neighbour, switchId) where cost is the distance
of the track being left. -/
def adjOfSwitchW (depot : Depot) (sw : Switch) (t : String) :
    List (ℚ × String × String) :=
  (sw.connectsTracks.filter (fun x => x = t)).flatMap (fun _ =>
    (sw.connectsTracks.filter (fun x => x ≠ t)).map
      (fun n => (track_cost depot t, n, sw.switchId)))

/-- The weighted adjacency list graph[t] built by `find_efficient_path`. -/
def adjW (depot : Depot) (t : String) : List (ℚ × String × String) :=
  depot.switches.flatMap (fun sw => adjOfSwitchW depot sw t)

/-- All track ids mentioned by switches: the constructed graph's key set. -/
def graphKeys (depot : Depot) : List String :=
  (depot.switches.flatMap (fun sw => sw.connectsTracks)).dedup

/-- One BFS expansion: append the unvisited neighbours to the queue, marking
each visited as it is pushed (the for-loop body of `find_path`). -/
def bfsPush (p : List String) (edges : List (String × String))
    (qv : List (String × List String) × List String) :
    List (String × List String) × List String :=
  edges.foldl (fun acc e =>
    if e.2 ∈ acc.2 then acc
    else (acc.1 ++ [(e.2, p ++ [e.1, e.2])], acc.2 ++ [e.2])) qv

/-- The BFS loop of `find_path`, with explicit fuel (the Python loop always
terminates because each track is enqueued at most once). -/
def bfsLoop (depot : Depot) (endT : String) :
    Nat → List (String × List String) → List String → Option (List String)
  | 0, _, _ => none
  | _ + 1, [], _ => none
  | fuel + 1, (t, p) :: rest, visited =>
    if t = endT then some p
    else
      let qv := bfsPush p (adj depot t) (rest, visited)
      bfsLoop depot endT fuel qv.1 qv.2

/-- `find_path` from `depot_manager.py`: BFS over the switch graph, None when
start or end is not a graph key or no path exists. -/
def find_path (depot : Depot) (s e : String) : Option (List String) :=
  if graphMem depot s ∧ graphMem depot e then
    bfsLoop depot e ((graphKeys depot).length + 1) [(s, [s])] [s]
  else none

/-- Code-point comparison of characters, as Python compares strings. -/
def charLtB (a b : Char) : Bool := a.toNat < b.toNat

/-- Lexicographic comparison of character lists. -/
def charListLtB : List Char → List Char → Bool
  | [], [] => false
  | [], _ :: _ => true
  | _ :: _, [] => false
  | a :: as, b :: bs =>
    if charLtB a b then true else if charLtB b a then false else charListLtB as bs

/-- Python string comparison. -/
def strLtB (a b : String) : Bool := charListLtB a.data b.data

/-- Lexicographic comparison of string lists, as Python compares lists. -/
def listLtB : List String → List String → Bool
  | [], [] => false
  | [], _ :: _ => true
  | _ :: _, [] => false
  | a :: as, b :: bs =>
    if strLtB a b then true else if strLtB b a then false else listLtB as bs

/-- Python tuple comparison on heap entries (cost, track, path). -/
def entryLtB (x y : ℚ × String × List String) : Bool :=
  if x.1 < y.1 then true
  else if y.1 < x.1 then false
  else if strLtB x.2.1 y.2.1 then true
  else if strLtB y.2.1 x.2.1 then false
  else listLtB x.2.2 y.2.2

/-- heapq.heappop: removes the smallest entry (leftmost among equal ones). -/
def popMin : List (ℚ × String × List String) →
    Option ((ℚ × String × List String) × List (ℚ × String × List String))
  | [] => none
  | x :: xs =>
    match popMin xs with
    | none => some (x, [])
    | some (m, rest) => if entryLtB m x then some (m, x :: rest) else some (x, xs)

/-- Insert or replace a key in the visited_costs dict. -/
def updateA : List (String × ℚ) → String → ℚ → List (String × ℚ)
  | [], k, v => [(k, v)]
  | (a, b) :: rest, k, v =>
    if a = k then (k, v) :: rest else (a, b) :: updateA rest k v

/-- Lookup in the visited_costs dict. -/
def lookupA : List (String × ℚ) → String → Option ℚ
  | [], _ => none
  | (a, b) :: rest, k => if a = k then some b else lookupA rest k

/-- Addition of rationals by cross-multiplication; definitionally reducible in
the kernel and provably equal to ordinary addition (ratAddC_eq below). -/
def ratAddC (a b : ℚ) : ℚ :=
  Rat.divInt (a.num * (b.den : ℤ) + b.num * (a.den : ℤ)) ((a.den : ℤ) * (b.den : ℤ))

theorem ratAddC_eq (a b : ℚ) : ratAddC a b = a + b := by
  have ha : ((a.den : ℤ)) ≠ 0 := Int.natCast_ne_zero.mpr a.den_nz
  have hb : ((b.den : ℤ)) ≠ 0 := Int.natCast_ne_zero.mpr b.den_nz
  rw [ratAddC]
  conv_rhs => rw [← Rat.num_divInt_den a, ← Rat.num_divInt_den b]
  rw [Rat.divInt_add_divInt _ _ ha hb]

/-- Python `new_cost < visited_costs.get(neighbor_track, float('inf'))`. -/
def dijImproves (m : List (String × ℚ)) (k : String) (nc : ℚ) : Bool :=
  match lookupA m k with
  | none => true
  | some b => nc < b

/-- One Dijkstra expansion: relax every outgoing edge, pushing an entry and
recording the new best cost whenever it improves on visited_costs (the
for-loop body of `find_efficient_path`). -/
def dijPush (c : ℚ) (p : List String) (edges : List (ℚ × String × String))
    (hv : List (ℚ × String × List String) × List (String × ℚ)) :
    List (ℚ × String × List String) × List (String × ℚ) :=
  edges.foldl (fun acc e =>
    if dijImproves acc.2 e.2.1 (ratAddC c e.1)
    then (acc.1 ++ [(ratAddC c e.1, e.2.1, p ++ [e.2.2, e.2.1])],
          updateA acc.2 e.2.1 (ratAddC c e.1))
    else acc) hv

/-- The Dijkstra loop of `find_efficient_path`, with explicit fuel; stale heap
entries (recorded cost above the best known) are skipped. The unreachable
KeyError case (popped track absent from visited_costs) maps to none. -/
def dijLoop (depot : Depot) (endT : String) :
    Nat → List (ℚ × String × List String) → List (String × ℚ) →
    Option (List String × ℚ)
  | 0, _, _ => none
  | fuel + 1, heap, vc =>
    match popMin heap with
    | none => none
    | some ((c, t, p), heap') =>
      match lookupA vc t with
      | none => none
      | some best =>
        if best < c then dijLoop depot endT fuel heap' vc
        else if t = endT then some (p, c)
        else
          let hv := dijPush c p (adjW depot t) (heap', vc)
          dijLoop depot endT fuel hv.1 hv.2

/-- Fuel sufficient for the Dijkstra loop with nonnegative costs: one stale
pop per heap entry plus one passing pop per graph key, bounded by the total
adjacency size plus two. -/
def dijFuel (depot : Depot) : Nat :=
  ((graphKeys depot).map (fun u => (adjW depot u).length)).sum + 2

/-- `find_efficient_path` from `depot_manager.py`: Dijkstra over the weighted
switch graph, None when start or end is not a graph key or no path exists. -/
def find_efficient_path (depot : Depot) (s e : String) : Option (List String × ℚ) :=
  if graphMem depot s ∧ graphMem depot e then
    dijLoop depot e (dijFuel depot) [(0, s, [s])] [(s, 0)]
  else none

/-- The depot of the concrete scenario: tracks A (100 m), B (50 m), C (80 m),
switches S1 joining A and B, S2 joining B and C. -/
def demoDepot : Depot :=
  { tracks := [⟨"A", some 100⟩, ⟨"B", some 50⟩, ⟨"C", some 80⟩]
    switches := [⟨"S1", ["A", "B"]⟩, ⟨"S2", ["B", "C"]⟩] }

/-- Counterexample to C6: on the stated depot, `find_efficient_path A C` does
not return the claimed cost 130 = cost(B) + cost(C): the code charges the
distance of the track being left on each hop, not the track being entered. -/
theorem cheapest_path_demo_cost_cex :
    find_efficient_path demoDepot "A" "C" ≠ some (["A", "S1", "B", "S2", "C"], 130) := by
  decide

/-- C6 amended: the cost model charges the distance of the track being exited
on each hop, so on the depot with tracks A(100), B(50), C(80) and switches
S1{A,B}, S2{B,C}, `find_efficient_path A C` returns the path A-S1-B-S2-C with
total cost cost(A) + cost(B) = 100 + 50 = 150. -/
theorem cheapest_path_demo_cost :
    find_efficient_path demoDepot "A" "C" = some (["A", "S1", "B", "S2", "C"], 150) := by
  decide

/-- A valid alternating track/switch path of the graph built by the
pathfinders: [t, sw1, t1, sw2, t2, ...] where every hop (sw, next) is an edge
of adj at the current track. -/
inductive Walk (depot : Depot) : String → List String → String → Prop
  | refl (t : String) : Walk depot t [t] t
  | step {t sw n e : String} {rest : List String} :
      (sw, n) ∈ adj depot t → Walk depot n (n :: rest) e →
      Walk depot t (t :: sw :: n :: rest) e

/-- The number of switch traversals of an alternating path. -/
def switch_count (p : List String) : Nat := p.length / 2

theorem Walk.length_pos {depot : Depot} {s e : String} {p : List String}
    (w : Walk depot s p e) : 1 ≤ p.length := by
  cases w <;> simp

theorem Walk.length_odd {depot : Depot} {s e : String} {p : List String}
    (w : Walk depot s p e) : p.length % 2 = 1 := by
  induction w with
  | refl => rfl
  | step _ _ ih => simp at ih ⊢; omega

theorem Walk.head_shape {depot : Depot} {s e : String} {p : List String}
    (w : Walk depot s p e) : ∃ tail, p = s :: tail := by
  cases w with
  | refl => exact ⟨[], rfl⟩
  | step h w' => exact ⟨_, rfl⟩

theorem Walk.eq_of_len_one {depot : Depot} {s e : String} {p : List String}
    (w : Walk depot s p e) (h : p.length = 1) : s = e ∧ p = [s] := by
  cases w with
  | refl => exact ⟨rfl, rfl⟩
  | step h' w' => simp at h

theorem Walk.append_edge {depot : Depot} {s t sw n : String} {p : List String}
    (w : Walk depot s p t) (h : (sw, n) ∈ adj depot t) :
    Walk depot s (p ++ [sw, n]) n := by
  induction w with
  | refl t => exact Walk.step h (Walk.refl n)
  | step h' w' ih =>
    have := Walk.step h' (ih h)
    simpa using this

theorem Walk.snoc_inv {depot : Depot} {s e : String} {p : List String}
    (w : Walk depot s p e) (h : 3 ≤ p.length) :
    ∃ q u sw, p = q ++ [sw, e] ∧ Walk depot s q u ∧ (sw, e) ∈ adj depot u := by
  induction w with
  | refl t => simp at h
  | step h' w' ih =>
    rename_i t sw n e rest
    cases rest with
    | nil =>
      obtain ⟨rfl, -⟩ := (Walk.eq_of_len_one w' rfl)
      exact ⟨[t], t, sw, by simp, Walk.refl t, h'⟩
    | cons r rs =>
      have hlen : 3 ≤ (n :: r :: rs).length := by
        cases w' with
        | step h'' w'' => simp
      obtain ⟨q, u, sw₂, heq, wq, hadj2⟩ := ih hlen
      obtain ⟨qt, rfl⟩ := wq.head_shape
      refine ⟨t :: sw :: n :: qt, u, sw₂, ?_, Walk.step h' ?_, hadj2⟩
      · have : (n :: r :: rs : List String) = (n :: qt) ++ [sw₂, e] := heq
        simp [this]
      · have hq : (n :: qt : List String) = n :: qt := rfl
        exact wq

theorem adj_mem_graph {depot : Depot} {t sw n : String}
    (h : (sw, n) ∈ adj depot t) : graphMem depot n ∧ graphMem depot t := by
  unfold adj at h
  obtain ⟨swt, hswt, hmem⟩ := List.mem_flatMap.mp h
  unfold adjOfSwitch at hmem
  obtain ⟨x, hx, hmem2⟩ := List.mem_flatMap.mp hmem
  obtain ⟨y, hy, heq⟩ := List.mem_map.mp hmem2
  have hyc : y ∈ swt.connectsTracks := (List.mem_filter.mp hy).1
  have hxc : x ∈ swt.connectsTracks := (List.mem_filter.mp hx).1
  have hxt : x = t := by simpa using (List.mem_filter.mp hx).2
  have hn : n = y := congrArg Prod.snd heq |>.symm
  exact ⟨⟨swt, hswt, hn ▸ hyc⟩, ⟨swt, hswt, hxt ▸ hxc⟩⟩

theorem walk_closed {depot : Depot} {P : String → Prop}
    (hcl : ∀ u, P u → ∀ sw n, (sw, n) ∈ adj depot u → P n) :
    ∀ {s e : String} {p : List String}, P s → Walk depot s p e → P e := by
  intro s e p hs w
  induction w with
  | refl => exact hs
  | step h w' ih => exact ih (hcl _ hs _ _ h)

/-- graphMem coincides with membership in the key list graphKeys. -/
theorem graphMem_iff_keys {depot : Depot} {x : String} :
    graphMem depot x ↔ x ∈ graphKeys depot := by
  unfold graphMem graphKeys
  rw [List.mem_dedup, List.mem_flatMap]

theorem bfsPush_decomp (p : List String) (edges : List (String × String))
    (q0 : List (String × List String)) (v0 : List String) :
    ∃ news, bfsPush p edges (q0, v0) = (q0 ++ news, v0 ++ news.map Prod.fst) ∧
      (∀ ent ∈ news, ∃ sw, (sw, ent.1) ∈ edges ∧ ent.2 = p ++ [sw, ent.1] ∧ ent.1 ∉ v0) ∧
      (news.map Prod.fst).Nodup ∧
      (∀ e ∈ edges, e.2 ∈ v0 ++ news.map Prod.fst) := by
  induction edges generalizing q0 v0 with
  | nil => exact ⟨[], by simp [bfsPush], by simp, by simp, by simp⟩
  | cons e rest ih =>
    by_cases hv : e.2 ∈ v0
    · have heq : bfsPush p (e :: rest) (q0, v0) = bfsPush p rest (q0, v0) := by
        simp [bfsPush, hv]
      obtain ⟨news, h1, h2, h3, h4⟩ := ih q0 v0
      refine ⟨news, heq ▸ h1, ?_, h3, ?_⟩
      · intro ent hent
        obtain ⟨sw, hsw, hp, hnv⟩ := h2 ent hent
        exact ⟨sw, List.mem_cons_of_mem _ hsw, hp, hnv⟩
      · intro f hf
        rcases List.mem_cons.mp hf with rfl | hf'
        · exact List.mem_append_left _ hv
        · exact h4 f hf'
    · have heq : bfsPush p (e :: rest) (q0, v0) =
          bfsPush p rest (q0 ++ [(e.2, p ++ [e.1, e.2])], v0 ++ [e.2]) := by
        simp [bfsPush, hv]
      obtain ⟨news, h1, h2, h3, h4⟩ := ih (q0 ++ [(e.2, p ++ [e.1, e.2])]) (v0 ++ [e.2])
      refine ⟨(e.2, p ++ [e.1, e.2]) :: news, ?_, ?_, ?_, ?_⟩
      · rw [heq, h1]; simp
      · intro ent hent
        rcases List.mem_cons.mp hent with rfl | hent'
        · exact ⟨e.1, List.mem_cons_self _ _, rfl, hv⟩
        · obtain ⟨sw, hsw, hp, hnv⟩ := h2 ent hent'
          exact ⟨sw, List.mem_cons_of_mem _ hsw, hp,
            fun hc => hnv (List.mem_append_left _ hc)⟩
      · refine List.Nodup.cons ?_ h3
        intro hc
        obtain ⟨ent, hent, hfst⟩ := List.mem_map.mp hc
        obtain ⟨sw, _, _, hnv⟩ := h2 ent hent
        exact hnv (List.mem_append_right _ (by simp [hfst]))
      · intro f hf
        rcases List.mem_cons.mp hf with rfl | hf'
        · simp
        · have := h4 f hf'
          simpa [List.append_assoc] using this

/-- Invariant of the BFS loop state: queue entries carry optimal walks, queue
lengths are monotone within one level, every node strictly closer than every
queued entry has been processed, neighbours of processed nodes are visited,
and the bookkeeping sets are consistent. -/
structure BfsInv (depot : Depot) (start endT : String)
    (q : List (String × List String)) (v processed : List String) : Prop where
  walks : ∀ ent ∈ q, Walk depot start ent.2 ent.1
  mono : q.Pairwise (fun a b => a.2.length ≤ b.2.length)
  width : ∀ a ∈ q, ∀ b ∈ q, a.2.length ≤ b.2.length + 2
  opt : ∀ ent ∈ q, ∀ p', Walk depot start p' ent.1 → ent.2.length ≤ p'.length
  front : ∀ x p', Walk depot start p' x →
    (∀ ent ∈ q, p'.length < ent.2.length) → x ∈ processed
  closedP : ∀ u ∈ processed, ∀ sw n, (sw, n) ∈ adj depot u → n ∈ v
  vsub : ∀ x ∈ v, x ∈ processed ∨ x ∈ q.map Prod.fst
  qsubv : ∀ ent ∈ q, ent.1 ∈ v
  psubv : ∀ x ∈ processed, x ∈ v
  pdisj : ∀ ent ∈ q, ent.1 ∉ processed
  qnodup : (q.map Prod.fst).Nodup
  pnodup : processed.Nodup
  startv : start ∈ v
  vgraph : ∀ x ∈ v, graphMem depot x
  endnp : endT ∉ processed

theorem bfs_inv_step {depot : Depot} {start endT t : String} {p : List String}
    {rest : List (String × List String)} {v processed : List String}
    (hinv : BfsInv depot start endT ((t, p) :: rest) v processed)
    (hne : t ≠ endT) :
    BfsInv depot start endT (bfsPush p (adj depot t) (rest, v)).1
      (bfsPush p (adj depot t) (rest, v)).2 (processed ++ [t]) := by
  obtain ⟨news, hdec, hnews, hnodupn, hcov⟩ := bfsPush_decomp p (adj depot t) rest v
  rw [hdec]
  have hw : Walk depot start p t := hinv.walks (t, p) (List.mem_cons_self _ _)
  have hLodd : p.length % 2 = 1 := hw.length_odd
  have hrest_ge : ∀ ent ∈ rest, p.length ≤ ent.2.length := by
    have h := hinv.mono
    rw [List.pairwise_cons] at h
    exact fun ent hm => h.1 ent hm
  have hrest_le : ∀ ent ∈ rest, ent.2.length ≤ p.length + 2 := fun ent hm =>
    hinv.width ent (List.mem_cons_of_mem _ hm) (t, p) (List.mem_cons_self _ _)
  have hnews_len : ∀ ent ∈ news, ent.2.length = p.length + 2 := by
    intro ent hm
    obtain ⟨sw, -, hp, -⟩ := hnews ent hm
    simp [hp]
  have hnews_new : ∀ ent ∈ news, ent.1 ∉ v := by
    intro ent hm
    obtain ⟨sw, -, -, hnv⟩ := hnews ent hm
    exact hnv
  have htv : t ∈ v := hinv.qsubv (t, p) (List.mem_cons_self _ _)
  have hnews_walk : ∀ ent ∈ news, Walk depot start ent.2 ent.1 := by
    intro ent hm
    obtain ⟨sw, hsw, hp, -⟩ := hnews ent hm
    rw [hp]; exact hw.append_edge hsw
  have hnews_opt : ∀ ent ∈ news, ∀ p', Walk depot start p' ent.1 →
      p.length + 2 ≤ p'.length := by
    intro ent hm p' hp'
    by_contra hlt
    push_neg at hlt
    have hodd' := hp'.length_odd
    by_cases hcase : p'.length < p.length
    · have hcond : ∀ ent' ∈ (t, p) :: rest, p'.length < ent'.2.length := by
        intro ent' hent'
        rcases List.mem_cons.mp hent' with h | hr
        · rw [h]; exact hcase
        · exact lt_of_lt_of_le hcase (hrest_ge ent' hr)
      exact (hnews_new ent hm) (hinv.psubv _ (hinv.front ent.1 p' hp' hcond))
    · push_neg at hcase
      by_cases h1 : p.length = 1
      · obtain ⟨heq, -⟩ := hp'.eq_of_len_one (by omega)
        exact (hnews_new ent hm) (heq ▸ hinv.startv)
      · have h3 : 3 ≤ p'.length := by omega
        obtain ⟨q', u, sw₂, heq', wq, hadj2⟩ := hp'.snoc_inv h3
        have hqlen : q'.length + 2 = p'.length := by rw [heq']; simp
        have huproc : u ∈ processed := by
          apply hinv.front u q' wq
          intro ent' hent'
          rcases List.mem_cons.mp hent' with h | hr
          · rw [h]; show q'.length < p.length; omega
          · have := hrest_ge ent' hr; omega
        exact (hnews_new ent hm) (hinv.closedP u huproc sw₂ ent.1 hadj2)
  have hub : ∀ x ∈ rest ++ news, x.2.length ≤ p.length + 2 := by
    intro x hx
    rcases List.mem_append.mp hx with hr | hn
    · exact hrest_le x hr
    · rw [hnews_len x hn]
  have hlb : ∀ x ∈ rest ++ news, p.length ≤ x.2.length := by
    intro x hx
    rcases List.mem_append.mp hx with hr | hn
    · exact hrest_ge x hr
    · rw [hnews_len x hn]; omega
  refine {
    walks := ?_, mono := ?_, width := ?_, opt := ?_, front := ?_, closedP := ?_,
    vsub := ?_, qsubv := ?_, psubv := ?_, pdisj := ?_, qnodup := ?_,
    pnodup := ?_, startv := ?_, vgraph := ?_, endnp := ?_ }
  · intro ent hm
    rcases List.mem_append.mp hm with hr | hn
    · exact hinv.walks ent (List.mem_cons_of_mem _ hr)
    · exact hnews_walk ent hn
  · rw [List.pairwise_append]
    refine ⟨(List.pairwise_cons.mp hinv.mono).2, ?_, ?_⟩
    · exact List.pairwise_of_forall_mem_list (fun a ha b hb => by
        rw [hnews_len a ha, hnews_len b hb])
    · intro a ha b hb
      calc a.2.length ≤ p.length + 2 := hrest_le a ha
        _ = b.2.length := (hnews_len b hb).symm
  · intro a ha b hb
    have h1 := hub a ha
    have h2 := hlb b hb
    omega
  · intro ent hm p' hp'
    rcases List.mem_append.mp hm with hr | hn
    · exact hinv.opt ent (List.mem_cons_of_mem _ hr) p' hp'
    · rw [hnews_len ent hn]; exact hnews_opt ent hn p' hp'
  · intro x p' hp' hcond
    by_cases hA : ∀ ent ∈ (t, p) :: rest, p'.length < ent.2.length
    · exact List.mem_append_left _ (hinv.front x p' hp' hA)
    · push_neg at hA
      obtain ⟨ent0, hent0, hge⟩ := hA
      have hLle : p.length ≤ p'.length := by
        rcases List.mem_cons.mp hent0 with h | hr
        · rw [h] at hge; exact hge
        · exact absurd (hcond ent0 (List.mem_append_left _ hr)) (not_lt.mpr hge)
      cases hq' : rest ++ news with
      | nil =>
        have hrestnil : rest = [] := by
          cases rest with
          | nil => rfl
          | cons a l => simp at hq'
        have hnewsnil : news = [] := by
          rw [hrestnil] at hq'; simpa using hq'
        have hvp : ∀ y ∈ v, y ∈ processed ++ [t] := by
          intro y hy
          rcases hinv.vsub y hy with h1 | h2
          · exact List.mem_append_left _ h1
          · rw [hrestnil] at h2
            simp at h2
            simp [h2]
        have hxv : x ∈ v := by
          refine walk_closed ?_ hinv.startv hp'
          intro u hu sw n hadj
          have hup := hvp u hu
          rcases List.mem_append.mp hup with h1 | h2
          · exact hinv.closedP u h1 sw n hadj
          · have hut : u = t := by simpa using h2
            have := hcov (sw, n) (hut ▸ hadj)
            simpa [hnewsnil] using this
        exact hvp x hxv
      | cons ent1 rest1 =>
        have hent1 : ent1 ∈ rest ++ news := by rw [hq']; exact List.mem_cons_self _ _
        have hub1 : p'.length < ent1.2.length := hcond ent1 hent1
        have hle1 : ent1.2.length ≤ p.length + 2 := hub ent1 hent1
        have hodd' := hp'.length_odd
        have hpeq : p'.length = p.length := by omega
        by_cases h1 : p.length = 1
        · obtain ⟨heqs, -⟩ := hp'.eq_of_len_one (by omega)
          rcases hinv.vsub x (heqs ▸ hinv.startv) with hP | hQ
          · exact List.mem_append_left _ hP
          · rw [List.map_cons] at hQ
            rcases List.mem_cons.mp hQ with h | h
            · simp [h]
            · obtain ⟨entx, hentx, hfx⟩ := List.mem_map.mp h
              have hle := hinv.opt entx (List.mem_cons_of_mem _ hentx) p'
                (by rw [hfx]; exact hp')
              have hgt := hcond entx (List.mem_append_left _ hentx)
              omega
        · have h3 : 3 ≤ p'.length := by omega
          obtain ⟨q', u, sw₂, heq', wq, hadj2⟩ := hp'.snoc_inv h3
          have hqlen : q'.length + 2 = p'.length := by rw [heq']; simp
          have huproc : u ∈ processed := by
            apply hinv.front u q' wq
            intro ent' hent'
            rcases List.mem_cons.mp hent' with h | hr
            · rw [h]; show q'.length < p.length; omega
            · have := hrest_ge ent' hr; omega
          have hxv : x ∈ v := hinv.closedP u huproc sw₂ x hadj2
          rcases hinv.vsub x hxv with hP | hQ
          · exact List.mem_append_left _ hP
          · rw [List.map_cons] at hQ
            rcases List.mem_cons.mp hQ with h | h
            · simp [h]
            · obtain ⟨entx, hentx, hfx⟩ := List.mem_map.mp h
              have hle := hinv.opt entx (List.mem_cons_of_mem _ hentx) p'
                (by rw [hfx]; exact hp')
              have hgt := hcond entx (List.mem_append_left _ hentx)
              omega
  · intro u hu sw n hadj
    rcases List.mem_append.mp hu with h1 | h2
    · exact List.mem_append_left _ (hinv.closedP u h1 sw n hadj)
    · have hut : u = t := by simpa using h2
      exact hcov (sw, n) (hut ▸ hadj)
  · intro x hx
    rcases List.mem_append.mp hx with h1 | h2
    · rcases hinv.vsub x h1 with hP | hQ
      · exact Or.inl (List.mem_append_left _ hP)
      · rw [List.map_cons] at hQ
        rcases List.mem_cons.mp hQ with h | h
        · exact Or.inl (List.mem_append_right _ (by simp [h]))
        · exact Or.inr (by rw [List.map_append]; exact List.mem_append_left _ h)
    · exact Or.inr (by rw [List.map_append]; exact List.mem_append_right _ h2)
  · intro ent hm
    rcases List.mem_append.mp hm with hr | hn
    · exact List.mem_append_left _ (hinv.qsubv ent (List.mem_cons_of_mem _ hr))
    · exact List.mem_append_right _ (List.mem_map.mpr ⟨ent, hn, rfl⟩)
  · intro x hx
    rcases List.mem_append.mp hx with h1 | h2
    · exact List.mem_append_left _ (hinv.psubv x h1)
    · have : x = t := by simpa using h2
      exact List.mem_append_left _ (this ▸ htv)
  · intro ent hm
    rw [List.mem_append]
    push_neg
    rcases List.mem_append.mp hm with hr | hn
    · constructor
      · exact hinv.pdisj ent (List.mem_cons_of_mem _ hr)
      · have hq := hinv.qnodup
        simp only [List.map_cons, List.nodup_cons] at hq
        intro hc
        have : ent.1 = t := by simpa using hc
        exact hq.1 (this ▸ List.mem_map.mpr ⟨ent, hr, rfl⟩)
    · have hnv := hnews_new ent hn
      constructor
      · exact fun hc => hnv (hinv.psubv _ hc)
      · intro hc
        have : ent.1 = t := by simpa using hc
        exact hnv (this ▸ htv)
  · rw [List.map_append, List.nodup_append]
    refine ⟨?_, hnodupn, ?_⟩
    · have hq := hinv.qnodup
      simp only [List.map_cons, List.nodup_cons] at hq
      exact hq.2
    · intro y hy hyn
      obtain ⟨ent, hent, rfl⟩ := List.mem_map.mp hy
      obtain ⟨ent', hent', hfe⟩ := List.mem_map.mp hyn
      have h1 : ent.1 ∈ v := hinv.qsubv ent (List.mem_cons_of_mem _ hent)
      exact hnews_new ent' hent' (hfe ▸ h1)
  · rw [List.nodup_append]
    exact ⟨hinv.pnodup, List.nodup_singleton _,
      fun y hy hyt => (hinv.pdisj (t, p) (List.mem_cons_self _ _))
        ((by simpa using hyt : y = t) ▸ hy)⟩
  · exact List.mem_append_left _ hinv.startv
  · intro x hx
    rcases List.mem_append.mp hx with h1 | h2
    · exact hinv.vgraph x h1
    · obtain ⟨ent, hent, rfl⟩ := List.mem_map.mp h2
      obtain ⟨sw, hsw, -, -⟩ := hnews ent hent
      exact (adj_mem_graph hsw).1
  · rw [List.mem_append]
    push_neg
    exact ⟨hinv.endnp, by simpa using fun hc => hne hc.symm⟩

theorem bfsLoop_sound {depot : Depot} {start endT : String} :
    ∀ (fuel : Nat) (q : List (String × List String)) (v processed : List String),
    BfsInv depot start endT q v processed →
    ∀ p, bfsLoop depot endT fuel q v = some p →
    Walk depot start p endT ∧ ∀ p', Walk depot start p' endT → p.length ≤ p'.length := by
  intro fuel
  induction fuel with
  | zero => intro q v processed _ p h; simp [bfsLoop] at h
  | succ fuel ih =>
    intro q v processed hinv p h
    cases q with
    | nil => simp [bfsLoop] at h
    | cons ent rest =>
      obtain ⟨t, pp⟩ := ent
      simp only [bfsLoop] at h
      by_cases ht : t = endT
      · rw [if_pos ht] at h
        injection h with h'
        constructor
        · rw [← h']
          exact ht ▸ hinv.walks (t, pp) (List.mem_cons_self _ _)
        · intro p' hp'
          rw [← h']
          exact hinv.opt (t, pp) (List.mem_cons_self _ _) p' (ht ▸ hp')
      · rw [if_neg ht] at h
        exact ih _ _ _ (bfs_inv_step hinv ht) p h

theorem bfsLoop_complete {depot : Depot} {start endT : String}
    {p0 : List String} (w0 : Walk depot start p0 endT) :
    ∀ (fuel : Nat) (q : List (String × List String)) (v processed : List String),
    BfsInv depot start endT q v processed →
    (graphKeys depot).length + 1 ≤ fuel + processed.length →
    bfsLoop depot endT fuel q v ≠ none := by
  intro fuel
  induction fuel with
  | zero =>
    intro q v processed hinv hfuel
    exfalso
    have hsub : processed ⊆ graphKeys depot := fun x hx =>
      graphMem_iff_keys.mp (hinv.vgraph x (hinv.psubv x hx))
    have h1 : processed.toFinset.card = processed.length :=
      List.toFinset_card_of_nodup hinv.pnodup
    have h2 : processed.toFinset ⊆ (graphKeys depot).toFinset := fun x hx =>
      List.mem_toFinset.mpr (hsub (List.mem_toFinset.mp hx))
    have h3 := Finset.card_le_card h2
    have h4 := (graphKeys depot).toFinset_card_le
    omega
  | succ fuel ih =>
    intro q v processed hinv hfuel
    cases q with
    | nil =>
      have hin : endT ∈ processed :=
        hinv.front endT p0 w0 (by intro ent hent; simp at hent)
      exact absurd hin hinv.endnp
    | cons ent rest =>
      obtain ⟨t, pp⟩ := ent
      simp only [bfsLoop]
      by_cases ht : t = endT
      · rw [if_pos ht]; simp
      · rw [if_neg ht]
        apply ih _ _ _ (bfs_inv_step hinv ht)
        simp only [List.length_append, List.length_singleton]
        omega

theorem bfs_inv_init {depot : Depot} {start endT : String}
    (hs : graphMem depot start) :
    BfsInv depot start endT [(start, [start])] [start] [] := by
  refine {
    walks := ?_, mono := ?_, width := ?_, opt := ?_, front := ?_, closedP := ?_,
    vsub := ?_, qsubv := ?_, psubv := ?_, pdisj := ?_, qnodup := ?_,
    pnodup := ?_, startv := ?_, vgraph := ?_, endnp := ?_ }
  · intro ent h
    rw [List.mem_singleton] at h
    subst h
    exact Walk.refl start
  · simp
  · intro a ha b hb
    rw [List.mem_singleton] at ha hb
    subst ha; subst hb; simp
  · intro ent h p' hp'
    rw [List.mem_singleton] at h
    subst h
    simpa using hp'.length_pos
  · intro x p' hp' hcond
    exfalso
    have h1 := hcond (start, [start]) (List.mem_singleton_self _)
    have h2 := hp'.length_pos
    have h3 : p'.length < 1 := by simpa using h1
    omega
  · intro u hu; simp at hu
  · intro x hx
    rw [List.mem_singleton] at hx
    subst hx
    right; simp
  · intro ent h
    rw [List.mem_singleton] at h
    subst h; simp
  · intro x hx; simp at hx
  · intro ent _; simp
  · simp
  · simp
  · simp
  · intro x hx
    rw [List.mem_singleton] at hx
    subst hx
    exact hs
  · simp

/-- C7: for every depot layout and every pair of tracks present in the
constructed graph with at least one connecting path, `find_path` returns a
valid alternating track/switch path from start to end whose number of switch
traversals is minimal over all valid paths between them. -/
theorem find_path_shortest (depot : Depot) (s e : String)
    (hs : graphMem depot s) (he : graphMem depot e)
    (hconn : ∃ p0, Walk depot s p0 e) :
    ∃ p, find_path depot s e = some p ∧ Walk depot s p e ∧
      ∀ q, Walk depot s q e → switch_count p ≤ switch_count q := by
  obtain ⟨p0, w0⟩ := hconn
  have hinit : BfsInv depot s e [(s, [s])] [s] [] := bfs_inv_init hs
  unfold find_path
  rw [if_pos ⟨hs, he⟩]
  have hne := bfsLoop_complete w0 ((graphKeys depot).length + 1)
    [(s, [s])] [s] [] hinit (by simp)
  cases hres : bfsLoop depot e ((graphKeys depot).length + 1) [(s, [s])] [s] with
  | none => exact absurd hres hne
  | some p =>
    obtain ⟨hw, hopt⟩ := bfsLoop_sound _ _ _ _ hinit p hres
    exact ⟨p, rfl, hw, fun q hq => Nat.div_le_div_right (hopt q hq)⟩

/-- Witness for C7 on the demo depot, route A to B. -/
theorem find_path_shortest_witness :
    ∃ p, find_path demoDepot "A" "B" = some p ∧ Walk demoDepot "A" p "B" ∧
      ∀ q, Walk demoDepot "A" q "B" → switch_count p ≤ switch_count q :=
  find_path_shortest demoDepot "A" "B" (by decide) (by decide)
    ⟨["A", "S1", "B"], Walk.step (by decide) (Walk.refl "B")⟩

theorem find_path_none_iff (depot : Depot) (s e : String) :
    find_path depot s e = none ↔
      (¬ graphMem depot s ∨ ¬ graphMem depot e ∨ ¬ ∃ p, Walk depot s p e) := by
  unfold find_path
  by_cases hmem : graphMem depot s ∧ graphMem depot e
  · rw [if_pos hmem]
    constructor
    · intro hnone
      refine Or.inr (Or.inr ?_)
      rintro ⟨p0, w0⟩
      exact bfsLoop_complete w0 _ _ _ _ (bfs_inv_init hmem.1) (by simp) hnone
    · intro h
      rcases h with h | h | h
      · exact absurd hmem.1 h
      · exact absurd hmem.2 h
      · cases hres : bfsLoop depot e ((graphKeys depot).length + 1) [(s, [s])] [s] with
        | none => rfl
        | some p =>
          exact absurd ⟨p, (bfsLoop_sound _ _ _ _ (bfs_inv_init hmem.1) p hres).1⟩ h
  · rw [if_neg hmem]
    constructor
    · intro _
      rcases not_and_or.mp hmem with h | h
      · exact Or.inl h
      · exact Or.inr (Or.inl h)
    · intro _; rfl

theorem adjW_mem_adj {depot : Depot} {t : String} {c : ℚ} {n sw : String}
    (h : (c, n, sw) ∈ adjW depot t) : (sw, n) ∈ adj depot t ∧ c = track_cost depot t := by
  unfold adjW at h
  obtain ⟨swt, hswt, hmem⟩ := List.mem_flatMap.mp h
  unfold adjOfSwitchW at hmem
  obtain ⟨x, hx, hmem2⟩ := List.mem_flatMap.mp hmem
  obtain ⟨y, hy, heq⟩ := List.mem_map.mp hmem2
  have hc : c = track_cost depot t := (congrArg Prod.fst heq).symm
  have hn : n = y := (congrArg (fun z => z.2.1) heq).symm
  have hsw : sw = swt.switchId := (congrArg (fun z => z.2.2) heq).symm
  refine ⟨?_, hc⟩
  unfold adj
  refine List.mem_flatMap.mpr ⟨swt, hswt, ?_⟩
  unfold adjOfSwitch
  refine List.mem_flatMap.mpr ⟨x, hx, ?_⟩
  refine List.mem_map.mpr ⟨y, hy, ?_⟩
  rw [hn, hsw]

theorem adj_mem_adjW {depot : Depot} {t sw n : String}
    (h : (sw, n) ∈ adj depot t) : (track_cost depot t, n, sw) ∈ adjW depot t := by
  unfold adj at h
  obtain ⟨swt, hswt, hmem⟩ := List.mem_flatMap.mp h
  unfold adjOfSwitch at hmem
  obtain ⟨x, hx, hmem2⟩ := List.mem_flatMap.mp hmem
  obtain ⟨y, hy, heq⟩ := List.mem_map.mp hmem2
  have hn : sw = swt.switchId := (congrArg Prod.fst heq).symm
  have hy2 : n = y := (congrArg Prod.snd heq).symm
  unfold adjW
  refine List.mem_flatMap.mpr ⟨swt, hswt, ?_⟩
  unfold adjOfSwitchW
  refine List.mem_flatMap.mpr ⟨x, hx, ?_⟩
  refine List.mem_map.mpr ⟨y, hy, ?_⟩
  rw [hn, hy2]

theorem entryLtB_true_le {y x : ℚ × String × List String}
    (h : entryLtB y x = true) : y.1 ≤ x.1 := by
  unfold entryLtB at h
  by_cases h1 : y.1 < x.1
  · exact le_of_lt h1
  · rw [if_neg h1] at h
    by_cases h2 : x.1 < y.1
    · rw [if_pos h2] at h; exact absurd h (by simp)
    · exact le_of_not_lt h2

theorem entryLtB_false_le {y x : ℚ × String × List String}
    (h : entryLtB y x = false) : x.1 ≤ y.1 := by
  unfold entryLtB at h
  by_cases h1 : y.1 < x.1
  · rw [if_pos h1] at h; exact absurd h (by simp)
  · exact le_of_not_lt h1

theorem popMin_none_iff {h : List (ℚ × String × List String)} :
    popMin h = none ↔ h = [] := by
  cases h with
  | nil => simp [popMin]
  | cons a as =>
    simp only [popMin]
    cases hp : popMin as with
    | none => simp
    | some pr =>
      obtain ⟨m, rest⟩ := pr
      by_cases hlt : entryLtB m a
      · simp [hlt]
      · simp [hlt]

theorem popMin_spec : ∀ {h : List (ℚ × String × List String)}
    {x : ℚ × String × List String} {rest : List (ℚ × String × List String)},
    popMin h = some (x, rest) → h.Perm (x :: rest) ∧ ∀ y ∈ h, x.1 ≤ y.1 := by
  intro h
  induction h with
  | nil => intro x rest hp; simp [popMin] at hp
  | cons a as ih =>
    intro x rest hp
    simp only [popMin] at hp
    cases hpm : popMin as with
    | none =>
      rw [hpm] at hp
      have has : as = [] := popMin_none_iff.mp hpm
      injection hp with hp'
      injection hp' with h1 h2
      subst h1; subst h2; subst has
      exact ⟨List.Perm.refl _, by intro y hy; simp at hy; subst hy; exact le_refl _⟩
    | some pr =>
      obtain ⟨m, r⟩ := pr
      rw [hpm] at hp
      dsimp only at hp
      obtain ⟨hperm, hmin⟩ := ih hpm
      by_cases hlt : entryLtB m a
      · rw [if_pos hlt] at hp
        injection hp with hp'
        injection hp' with h1 h2
        subst h1; subst h2
        constructor
        · exact (hperm.cons a).trans (List.Perm.swap _ _ _)
        · intro y hy
          rcases List.mem_cons.mp hy with rfl | hy'
          · exact entryLtB_true_le hlt
          · exact hmin y hy'
      · rw [if_neg hlt] at hp
        injection hp with hp'
        injection hp' with h1 h2
        subst h1; subst h2
        constructor
        · exact List.Perm.refl _
        · intro y hy
          rcases List.mem_cons.mp hy with rfl | hy'
          · exact le_refl _
          · exact le_trans (entryLtB_false_le (by simpa using hlt)) (hmin y hy')

theorem lookupA_updateA_self (m : List (String × ℚ)) (k : String) (v : ℚ) :
    lookupA (updateA m k v) k = some v := by
  induction m with
  | nil => simp [updateA, lookupA]
  | cons kv rest ih =>
    obtain ⟨a, b⟩ := kv
    by_cases hak : a = k
    · simp [updateA, hak, lookupA]
    · simp [updateA, hak, lookupA, ih]

theorem lookupA_updateA_ne (m : List (String × ℚ)) (k : String) (v : ℚ)
    (k' : String) (h : k' ≠ k) : lookupA (updateA m k v) k' = lookupA m k' := by
  induction m with
  | nil => simp [updateA, lookupA, Ne.symm h]
  | cons kv rest ih =>
    obtain ⟨a, b⟩ := kv
    by_cases hak : a = k
    · subst hak
      simp [updateA, lookupA, Ne.symm h]
    · simp [updateA, hak, lookupA, ih]

theorem track_cost_nonneg {depot : Depot}
    (hd : ∀ tr ∈ depot.tracks, ∀ dm, tr.distance_metres = some dm → 0 ≤ dm)
    (t : String) : 0 ≤ track_cost depot t := by
  unfold track_cost
  cases hf : depot.tracks.reverse.find? (fun tr => tr.trackId = t) with
  | none => norm_num
  | some tr =>
    have htr : tr ∈ depot.tracks := by
      have := List.mem_of_find?_eq_some hf
      exact List.mem_reverse.mp this
    show 0 ≤ tr.distance_metres.getD 1
    cases hdm : tr.distance_metres with
    | none => norm_num [Option.getD]
    | some dm => simpa [Option.getD] using hd tr htr dm hdm

theorem adjW_cost_nonneg {depot : Depot}
    (hd : ∀ tr ∈ depot.tracks, ∀ dm, tr.distance_metres = some dm → 0 ≤ dm)
    {u : String} {e : ℚ × String × String} (he : e ∈ adjW depot u) : 0 ≤ e.1 := by
  obtain ⟨c, n, sw⟩ := e
  have := (adjW_mem_adj he).2
  rw [this]
  exact track_cost_nonneg hd u

theorem dijPush_cons (c : ℚ) (p : List String) (w : ℚ) (n sw : String)
    (rest : List (ℚ × String × String)) (h0 : List (ℚ × String × List String))
    (m0 : List (String × ℚ)) :
    dijPush c p ((w, n, sw) :: rest) (h0, m0) =
      if dijImproves m0 n (ratAddC c w)
      then dijPush c p rest
        (h0 ++ [(ratAddC c w, n, p ++ [sw, n])], updateA m0 n (ratAddC c w))
      else dijPush c p rest (h0, m0) := by
  simp only [dijPush, List.foldl_cons]
  by_cases h : dijImproves m0 n (ratAddC c w) <;> simp [h]

theorem ratAddC_le (c w : ℚ) (hw : 0 ≤ w) : c ≤ ratAddC c w := by
  rw [ratAddC_eq]; linarith

theorem dijPush_decomp (c : ℚ) (p : List String) :
    ∀ (edges : List (ℚ × String × String)) (h0 : List (ℚ × String × List String))
      (m0 : List (String × ℚ)),
    (∀ e ∈ edges, 0 ≤ e.1) →
    ∃ news,
      (dijPush c p edges (h0, m0)).1 = h0 ++ news ∧
      (∀ ent ∈ news, ∃ w n sw, (w, n, sw) ∈ edges ∧
        ent = (ratAddC c w, n, p ++ [sw, n])) ∧
      (∀ ent ∈ news, c ≤ ent.1) ∧
      (∀ ent ∈ news, ∃ b, lookupA (dijPush c p edges (h0, m0)).2 ent.2.1 = some b ∧
        b ≤ ent.1) ∧
      (∀ k b0, lookupA m0 k = some b0 →
        ∃ b1, lookupA (dijPush c p edges (h0, m0)).2 k = some b1 ∧ b1 ≤ b0) ∧
      (∀ k b1, lookupA (dijPush c p edges (h0, m0)).2 k = some b1 →
        (lookupA m0 k = some b1 ∧ ∀ ent ∈ news, ent.2.1 ≠ k) ∨
        (∃ ent ∈ news, ent.2.1 = k ∧ ent.1 = b1)) ∧
      (∀ u b, lookupA m0 u = some b → b ≤ c →
        (∀ ent ∈ news, ent.2.1 ≠ u) ∧
        lookupA (dijPush c p edges (h0, m0)).2 u = lookupA m0 u) ∧
      (∀ k, ((news.filter (fun ent => ent.2.1 = k)).map (fun ent => ent.1)).Nodup) ∧
      (∀ ent ∈ news, ∀ b0, lookupA m0 ent.2.1 = some b0 → ent.1 < b0) ∧
      (∀ e ∈ edges, ∃ b, lookupA (dijPush c p edges (h0, m0)).2 e.2.1 = some b) ∧
      news.length ≤ edges.length := by
  intro edges
  induction edges with
  | nil =>
    intro h0 m0 _
    refine ⟨[], by simp [dijPush], by simp, by simp, by simp, ?_, ?_, ?_, by simp, by simp,
      by simp, by simp⟩
    · intro k b0 hk
      exact ⟨b0, by simpa [dijPush] using hk, le_refl _⟩
    · intro k b1 hk
      exact Or.inl ⟨by simpa [dijPush] using hk, by simp⟩
    · intro u b hb hbc
      exact ⟨by simp, by simp [dijPush]⟩
  | cons e rest ih =>
    obtain ⟨w, n, sw⟩ := e
    intro h0 m0 hw
    have hw0 : (0 : ℚ) ≤ w := hw (w, n, sw) (List.mem_cons_self _ _)
    have hwrest : ∀ e ∈ rest, (0 : ℚ) ≤ e.1 := fun e he => hw e (List.mem_cons_of_mem _ he)
    have hcnc : c ≤ ratAddC c w := ratAddC_le c w hw0
    by_cases himp : dijImproves m0 n (ratAddC c w) = true
    · -- push branch
      have heq : dijPush c p ((w, n, sw) :: rest) (h0, m0) =
          dijPush c p rest
            (h0 ++ [(ratAddC c w, n, p ++ [sw, n])], updateA m0 n (ratAddC c w)) := by
        rw [dijPush_cons, if_pos himp]
      have hcond : ∀ b0, lookupA m0 n = some b0 → ratAddC c w < b0 := by
        intro b0 hb0
        unfold dijImproves at himp
        rw [hb0] at himp
        simpa using himp
      obtain ⟨news', h1, h2, h3, h4, h5, h6, h7, h8, h9, h10, h11⟩ :=
        ih (h0 ++ [(ratAddC c w, n, p ++ [sw, n])]) (updateA m0 n (ratAddC c w)) hwrest
      rw [heq]
      have hM1self : lookupA (updateA m0 n (ratAddC c w)) n = some (ratAddC c w) :=
        lookupA_updateA_self m0 n (ratAddC c w)
      have hM1ne : ∀ k, k ≠ n →
          lookupA (updateA m0 n (ratAddC c w)) k = lookupA m0 k := fun k hk =>
        lookupA_updateA_ne m0 n (ratAddC c w) k hk
      refine ⟨(ratAddC c w, n, p ++ [sw, n]) :: news', ?_, ?_, ?_, ?_, ?_, ?_, ?_, ?_, ?_, ?_,
        by simpa using Nat.succ_le_succ h11⟩
      · rw [h1]; simp
      · intro ent hent
        rcases List.mem_cons.mp hent with rfl | hent'
        · exact ⟨w, n, sw, List.mem_cons_self _ _, rfl⟩
        · obtain ⟨w', n', sw', hmem, hshape⟩ := h2 ent hent'
          exact ⟨w', n', sw', List.mem_cons_of_mem _ hmem, hshape⟩
      · intro ent hent
        rcases List.mem_cons.mp hent with rfl | hent'
        · exact hcnc
        · exact h3 ent hent'
      · intro ent hent
        rcases List.mem_cons.mp hent with rfl | hent'
        · obtain ⟨b1, hb1, hle⟩ := h5 n (ratAddC c w) hM1self
          exact ⟨b1, hb1, hle⟩
        · exact h4 ent hent'
      · intro k b0 hk
        by_cases hkn : k = n
        · subst hkn
          obtain ⟨b1, hb1, hle⟩ := h5 k (ratAddC c w) hM1self
          exact ⟨b1, hb1, le_trans hle (le_of_lt (hcond b0 hk))⟩
        · obtain ⟨b1, hb1, hle⟩ := h5 k b0 (by rw [hM1ne k hkn]; exact hk)
          exact ⟨b1, hb1, hle⟩
      · intro k b1 hk
        rcases h6 k b1 hk with ⟨hun, hno⟩ | ⟨ent, hent, htrk, hcost⟩
        · by_cases hkn : k = n
          · subst hkn
            rw [hM1self] at hun
            injection hun with hun'
            exact Or.inr ⟨(ratAddC c w, k, p ++ [sw, k]), List.mem_cons_self _ _, rfl, hun'⟩
          · refine Or.inl ⟨by rw [← hM1ne k hkn]; exact hun, ?_⟩
            intro ent hent
            rcases List.mem_cons.mp hent with rfl | hent'
            · exact fun hc => hkn hc.symm
            · exact hno ent hent'
        · exact Or.inr ⟨ent, List.mem_cons_of_mem _ hent, htrk, hcost⟩
      · intro u b hb hbc
        have hun : u ≠ n := by
          intro hc
          rw [hc] at hb
          have hlt := hcond b hb
          exact lt_irrefl _ (lt_of_lt_of_le hlt (le_trans hbc hcnc))
        obtain ⟨hno, hlook⟩ := h7 u b (by rw [hM1ne u hun]; exact hb) hbc
        refine ⟨?_, by rw [hlook, hM1ne u hun]⟩
        intro ent hent
        rcases List.mem_cons.mp hent with rfl | hent'
        · exact fun hc => hun hc.symm
        · exact hno ent hent'
      · intro k
        by_cases hkn : n = k
        · subst hkn
          have hfil : ((ratAddC c w, n, p ++ [sw, n]) :: news').filter
              (fun ent => ent.2.1 = n) =
              (ratAddC c w, n, p ++ [sw, n]) :: news'.filter (fun ent => ent.2.1 = n) := by
            simp
          rw [hfil, List.map_cons, List.nodup_cons]
          refine ⟨?_, h8 n⟩
          intro hc
          obtain ⟨ent, hent, hcost⟩ := List.mem_map.mp hc
          have hentn : ent.2.1 = n := by
            have := (List.mem_filter.mp hent).2
            simpa using this
          have hlt := h9 ent (List.mem_filter.mp hent).1 (ratAddC c w)
            (by rw [hentn]; exact hM1self)
          rw [hcost] at hlt
          exact lt_irrefl _ hlt
        · have hfil : ((ratAddC c w, n, p ++ [sw, n]) :: news').filter
              (fun ent => ent.2.1 = k) = news'.filter (fun ent => ent.2.1 = k) := by
            simp [hkn]
          rw [hfil]
          exact h8 k
      · intro ent hent b0 hb0
        rcases List.mem_cons.mp hent with rfl | hent'
        · exact hcond b0 hb0
        · by_cases hkn : ent.2.1 = n
          · have := h9 ent hent' (ratAddC c w) (by rw [hkn]; exact hM1self)
            have h2' := hcond b0 (by rw [← hkn]; exact hb0)
            linarith
          · exact h9 ent hent' b0 (by rw [hM1ne _ hkn]; exact hb0)
      · intro e he
        rcases List.mem_cons.mp he with rfl | he'
        · obtain ⟨b1, hb1, -⟩ := h5 n (ratAddC c w) hM1self
          exact ⟨b1, hb1⟩
        · exact h10 e he'
    · -- no-push branch
      have heq : dijPush c p ((w, n, sw) :: rest) (h0, m0) = dijPush c p rest (h0, m0) := by
        rw [dijPush_cons, if_neg himp]
      have hsome : ∃ b, lookupA m0 n = some b ∧ b ≤ ratAddC c w := by
        unfold dijImproves at himp
        cases hlk : lookupA m0 n with
        | none => rw [hlk] at himp; simp at himp
        | some b =>
          rw [hlk] at himp
          simp at himp
          exact ⟨b, rfl, himp⟩
      obtain ⟨news', h1, h2, h3, h4, h5, h6, h7, h8, h9, h10, h11⟩ := ih h0 m0 hwrest
      rw [heq]
      refine ⟨news', h1, ?_, h3, h4, h5, h6, h7, h8, h9, ?_,
        le_trans h11 (Nat.le_succ _)⟩
      · intro ent hent
        obtain ⟨w', n', sw', hmem, hshape⟩ := h2 ent hent
        exact ⟨w', n', sw', List.mem_cons_of_mem _ hmem, hshape⟩
      · intro e he
        rcases List.mem_cons.mp he with rfl | he'
        · obtain ⟨b, hb, -⟩ := hsome
          obtain ⟨b1, hb1, -⟩ := h5 n b hb
          exact ⟨b1, hb1⟩
        · exact h10 e he'

/-- Invariant of the Dijkstra loop state: heap entries carry valid walks and
costs at or above the recorded best for their track, every recorded track is
processed or has a heap entry at its recorded cost, processed tracks sit
strictly below all their remaining heap entries and at or below the bound B
(the last popped cost), per-track heap costs are distinct, and neighbours of
processed tracks are recorded. -/
structure DijInv (depot : Depot) (start endT : String)
    (heap : List (ℚ × String × List String)) (vc : List (String × ℚ))
    (processed : List String) (B : ℚ) : Prop where
  walks : ∀ ent ∈ heap, Walk depot start ent.2.2 ent.2.1
  keyed : ∀ ent ∈ heap, ∃ b, lookupA vc ent.2.1 = some b ∧ b ≤ ent.1
  cover : ∀ k b, lookupA vc k = some b → k ∈ processed ∨ ∃ cp, (b, k, cp) ∈ heap
  procmin : ∀ u ∈ processed, ∀ ent ∈ heap, ent.2.1 = u →
    ∀ b, lookupA vc u = some b → b < ent.1
  distinct : ∀ k, ((heap.filter (fun ent => ent.2.1 = k)).map (fun ent => ent.1)).Nodup
  procB : ∀ u ∈ processed, ∃ b, lookupA vc u = some b ∧ b ≤ B
  heapB : ∀ ent ∈ heap, B ≤ ent.1
  closedP : ∀ u ∈ processed, ∀ e ∈ adjW depot u, ∃ b, lookupA vc e.2.1 = some b
  skey : ∃ b, lookupA vc start = some b
  keysgraph : ∀ k b, lookupA vc k = some b → graphMem depot k
  pnodup : processed.Nodup
  endnp : endT ∉ processed

theorem distinct_popMin {heap rest : List (ℚ × String × List String)}
    {x : ℚ × String × List String} (hp : popMin heap = some (x, rest))
    (hd : ∀ k, ((heap.filter (fun ent => ent.2.1 = k)).map (fun ent => ent.1)).Nodup) :
    ∀ k, ((rest.filter (fun ent => ent.2.1 = k)).map (fun ent => ent.1)).Nodup := by
  intro k
  have hperm := (popMin_spec hp).1
  have h1 : (((x :: rest).filter (fun ent => ent.2.1 = k)).map
      (fun ent => ent.1)).Nodup :=
    (((hperm.filter _).map _).nodup_iff).mp (hd k)
  by_cases hx : x.2.1 = k
  · rw [List.filter_cons_of_pos (by simpa using hx)] at h1
    rw [List.map_cons] at h1
    exact (List.nodup_cons.mp h1).2
  · rwa [List.filter_cons_of_neg (by simpa using hx)] at h1

theorem dij_inv_stale {depot : Depot} {start endT : String}
    {heap rest : List (ℚ × String × List String)} {vc : List (String × ℚ)}
    {processed : List String} {B : ℚ} {x : ℚ × String × List String}
    (hinv : DijInv depot start endT heap vc processed B)
    (hp : popMin heap = some (x, rest))
    (hstale : ∀ b, lookupA vc x.2.1 = some b → b < x.1) :
    DijInv depot start endT rest vc processed B := by
  obtain ⟨hperm, hmin⟩ := popMin_spec hp
  have hsub : ∀ y ∈ rest, y ∈ heap := fun y hy =>
    hperm.mem_iff.mpr (List.mem_cons_of_mem _ hy)
  refine {
    walks := fun ent h => hinv.walks ent (hsub ent h),
    keyed := fun ent h => hinv.keyed ent (hsub ent h),
    cover := ?_,
    procmin := fun u hu ent h => hinv.procmin u hu ent (hsub ent h),
    distinct := distinct_popMin hp hinv.distinct,
    procB := hinv.procB,
    heapB := fun ent h => hinv.heapB ent (hsub ent h),
    closedP := hinv.closedP,
    skey := hinv.skey,
    keysgraph := hinv.keysgraph,
    pnodup := hinv.pnodup,
    endnp := hinv.endnp }
  intro k b hk
  rcases hinv.cover k b hk with h | ⟨cp, hcp⟩
  · exact Or.inl h
  · refine Or.inr ⟨cp, ?_⟩
    have hmem : (b, k, cp) ∈ x :: rest := hperm.mem_iff.mp hcp
    rcases List.mem_cons.mp hmem with heq | hmem'
    · exfalso
      have hxk : x.2.1 = k := by rw [← heq]
      have hx1 : x.1 = b := by rw [← heq]
      have := hstale b (by rw [hxk]; exact hk)
      rw [hx1] at this
      exact lt_irrefl _ this
    · exact hmem'

theorem dij_inv_expand {depot : Depot} {start endT : String}
    {heap rest : List (ℚ × String × List String)} {vc : List (String × ℚ)}
    {processed : List String} {B : ℚ} {c : ℚ} {t : String} {p : List String}
    (hinv : DijInv depot start endT heap vc processed B)
    (hp : popMin heap = some ((c, t, p), rest))
    (hbest : lookupA vc t = some c)
    (hne : t ≠ endT)
    (hw : ∀ e ∈ adjW depot t, 0 ≤ e.1) :
    DijInv depot start endT (dijPush c p (adjW depot t) (rest, vc)).1
      (dijPush c p (adjW depot t) (rest, vc)).2 (processed ++ [t]) c := by
  obtain ⟨hperm, hmin⟩ := popMin_spec hp
  have hxheap : ((c, t, p) : ℚ × String × List String) ∈ heap :=
    hperm.mem_iff.mpr (List.mem_cons_self _ _)
  have hsub : ∀ y ∈ rest, y ∈ heap := fun y hy =>
    hperm.mem_iff.mpr (List.mem_cons_of_mem _ hy)
  have hwalkt : Walk depot start p t := hinv.walks (c, t, p) hxheap
  have htnotp : t ∉ processed := by
    intro hc
    exact lt_irrefl c (hinv.procmin t hc (c, t, p) hxheap rfl c hbest)
  obtain ⟨news, d1, d2, d3, d4, d5, d6, d7, d8, d9, d10, -⟩ :=
    dijPush_decomp c p (adjW depot t) rest vc hw
  have hresthi : ∀ ent ∈ rest, ent.2.1 = t → c < ent.1 := by
    intro ent hent htrk
    have hne' : ent.1 ≠ c := by
      have hfil : (heap.filter (fun e => e.2.1 = t)).Perm
          (((c, t, p) :: rest).filter (fun e => e.2.1 = t)) := hperm.filter _
      have hx : (((c, t, p) :: rest).filter (fun e => e.2.1 = t)) =
          (c, t, p) :: rest.filter (fun e => e.2.1 = t) :=
        List.filter_cons_of_pos (by simp)
      have hnd : (((c, t, p) :: rest.filter (fun e => e.2.1 = t)).map
          (fun e => e.1)).Nodup := by
        rw [← hx]
        exact ((hfil.map _).nodup_iff).mp (hinv.distinct t)
      rw [List.map_cons, List.nodup_cons] at hnd
      intro hc
      exact hnd.1 (List.mem_map.mpr ⟨ent, List.mem_filter.mpr
        ⟨hent, by simpa using htrk⟩, hc⟩)
    obtain ⟨b0, hb0, hble⟩ := hinv.keyed ent (hsub ent hent)
    rw [htrk, hbest] at hb0
    injection hb0 with hb0'
    rw [← hb0'] at hble
    exact lt_of_le_of_ne hble (Ne.symm hne')
  rw [d1]
  refine {
    walks := ?_, keyed := ?_, cover := ?_, procmin := ?_, distinct := ?_,
    procB := ?_, heapB := ?_, closedP := ?_, skey := ?_, keysgraph := ?_,
    pnodup := ?_, endnp := ?_ }
  · intro ent hent
    rcases List.mem_append.mp hent with hr | hn
    · exact hinv.walks ent (hsub ent hr)
    · obtain ⟨w, n, sw, hmem, hshape⟩ := d2 ent hn
      rw [hshape]
      exact hwalkt.append_edge (adjW_mem_adj hmem).1
  · intro ent hent
    rcases List.mem_append.mp hent with hr | hn
    · obtain ⟨b, hb, hble⟩ := hinv.keyed ent (hsub ent hr)
      obtain ⟨b1, hb1, hble1⟩ := d5 ent.2.1 b hb
      exact ⟨b1, hb1, le_trans hble1 hble⟩
    · exact d4 ent hn
  · intro k b1 hk
    by_cases hkt : k = t
    · exact Or.inl (by simp [hkt])
    · rcases d6 k b1 hk with ⟨hun, hno⟩ | ⟨ent, hent, htrk, hcost⟩
      · rcases hinv.cover k b1 hun with hP | ⟨cp, hcp⟩
        · exact Or.inl (List.mem_append_left _ hP)
        · refine Or.inr ⟨cp, List.mem_append_left _ ?_⟩
          have hmem : (b1, k, cp) ∈ (c, t, p) :: rest := hperm.mem_iff.mp hcp
          rcases List.mem_cons.mp hmem with heq | hmem'
          · exfalso; apply hkt
            have : k = t := by
              have := congrArg (fun z => z.2.1) heq
              simpa using this
            exact this
          · exact hmem'
      · obtain ⟨e1, e2, e3⟩ := ent
        simp only at htrk hcost
        refine Or.inr ⟨e3, List.mem_append_right _ ?_⟩
        rw [← htrk, ← hcost]
        exact hent
  · intro u hu ent hent htrk b hb
    rcases List.mem_append.mp hu with huP | huT
    · obtain ⟨bu, hbu, hbuB⟩ := hinv.procB u huP
      have hbuc : bu ≤ c := le_trans hbuB (hinv.heapB (c, t, p) hxheap)
      obtain ⟨hno, hlook⟩ := d7 u bu hbu hbuc
      rw [hlook, hbu] at hb
      injection hb with hb'
      subst hb'
      rcases List.mem_append.mp hent with hr | hn
      · exact hinv.procmin u huP ent (hsub ent hr) htrk bu hbu
      · exact absurd htrk (hno ent hn)
    · have hut : u = t := by simpa using huT
      subst hut
      obtain ⟨hno, hlook⟩ := d7 u c hbest (le_refl c)
      rw [hlook, hbest] at hb
      injection hb with hb'
      subst hb'
      rcases List.mem_append.mp hent with hr | hn
      · exact hresthi ent hr htrk
      · exact absurd htrk (hno ent hn)
  · intro k
    rw [List.filter_append, List.map_append]
    rw [List.nodup_append]
    refine ⟨distinct_popMin hp hinv.distinct k, d8 k, ?_⟩
    intro y hy1 hy2
    obtain ⟨entr, hentr, hcostr⟩ := List.mem_map.mp hy1
    obtain ⟨entn, hentn, hcostn⟩ := List.mem_map.mp hy2
    have hentrk : entr.2.1 = k := by simpa using (List.mem_filter.mp hentr).2
    have hentnk : entn.2.1 = k := by simpa using (List.mem_filter.mp hentn).2
    obtain ⟨b0, hb0, hble⟩ := hinv.keyed entr (hsub entr (List.mem_filter.mp hentr).1)
    have hlt := d9 entn (List.mem_filter.mp hentn).1 b0
      (by rw [hentnk, ← hentrk]; exact hb0)
    rw [hcostr] at hble
    rw [hcostn] at hlt
    exact absurd hble (not_le.mpr hlt)
  · intro u hu
    rcases List.mem_append.mp hu with huP | huT
    · obtain ⟨bu, hbu, hbuB⟩ := hinv.procB u huP
      have hbuc : bu ≤ c := le_trans hbuB (hinv.heapB (c, t, p) hxheap)
      obtain ⟨-, hlook⟩ := d7 u bu hbu hbuc
      exact ⟨bu, by rw [hlook]; exact hbu, hbuc⟩
    · have hut : u = t := by simpa using huT
      subst hut
      obtain ⟨-, hlook⟩ := d7 u c hbest (le_refl c)
      exact ⟨c, by rw [hlook]; exact hbest, le_refl c⟩
  · intro ent hent
    rcases List.mem_append.mp hent with hr | hn
    · exact hmin ent (hsub ent hr)
    · exact d3 ent hn
  · intro u hu e he
    rcases List.mem_append.mp hu with huP | huT
    · obtain ⟨b, hb⟩ := hinv.closedP u huP e he
      obtain ⟨b1, hb1, -⟩ := d5 e.2.1 b hb
      exact ⟨b1, hb1⟩
    · have hut : u = t := by simpa using huT
      subst hut
      exact d10 e he
  · obtain ⟨b, hb⟩ := hinv.skey
    obtain ⟨b1, hb1, -⟩ := d5 start b hb
    exact ⟨b1, hb1⟩
  · intro k b1 hk
    rcases d6 k b1 hk with ⟨hun, -⟩ | ⟨ent, hent, htrk, -⟩
    · exact hinv.keysgraph k b1 hun
    · obtain ⟨w, n, sw, hmem, hshape⟩ := d2 ent hent
      have : ent.2.1 = n := by rw [hshape]
      rw [← htrk, this]
      exact (adj_mem_graph (adjW_mem_adj hmem).1).1
  · rw [List.nodup_append]
    exact ⟨hinv.pnodup, List.nodup_singleton _,
      fun y hy hyt => htnotp ((by simpa using hyt : y = t) ▸ hy)⟩
  · rw [List.mem_append]
    push_neg
    exact ⟨hinv.endnp, by simpa using fun hc => hne hc.symm⟩

/-- Termination potential of the Dijkstra loop: every iteration pops one heap
entry, and a passing pop of track t pushes at most deg(t) entries while
permanently processing t. -/
def dijPot (depot : Depot) (heap : List (ℚ × String × List String))
    (processed : List String) : Nat :=
  heap.length + (((graphKeys depot).filter (fun u => u ∉ processed)).map
    (fun u => (adjW depot u).length)).sum

theorem sum_deg_remove_aux (depot : Depot) :
    ∀ (l : List String) (processed : List String) (t : String), l.Nodup → t ∈ l →
    t ∉ processed →
    ((l.filter (fun u => u ∉ processed ++ [t])).map
      (fun u => (adjW depot u).length)).sum + (adjW depot t).length =
    ((l.filter (fun u => u ∉ processed)).map (fun u => (adjW depot u).length)).sum := by
  intro l
  induction l with
  | nil => intro processed t _ ht; simp at ht
  | cons a ls ih =>
    intro processed t hnd ht htp
    rw [List.nodup_cons] at hnd
    by_cases hat : a = t
    · subst hat
      have hLHS : (a :: ls).filter (fun u => u ∉ processed ++ [a]) =
          ls.filter (fun u => u ∉ processed ++ [a]) := by
        rw [List.filter_cons]
        simp
      have hRHS : (a :: ls).filter (fun u => u ∉ processed) =
          a :: ls.filter (fun u => u ∉ processed) := by
        rw [List.filter_cons]
        simp [htp]
      rw [hLHS, hRHS, List.map_cons, List.sum_cons]
      have hcong : ls.filter (fun u => u ∉ processed ++ [a]) =
          ls.filter (fun u => u ∉ processed) := by
        apply List.filter_congr
        intro u hu
        have hua : u ≠ a := fun hc => hnd.1 (hc ▸ hu)
        simp [List.mem_append, hua]
      rw [hcong]
      omega
    · have ht' : t ∈ ls := by
        rcases List.mem_cons.mp ht with h | h
        · exact absurd h.symm hat
        · exact h
      have hih := ih processed t hnd.2 ht' htp
      have haeq : (a ∉ processed ++ [t]) ↔ (a ∉ processed) := by
        simp [List.mem_append, hat]
      by_cases hap : a ∈ processed
      · have h1 : (a :: ls).filter (fun u => u ∉ processed ++ [t]) =
            ls.filter (fun u => u ∉ processed ++ [t]) := by
          rw [List.filter_cons]
          simp [hap]
        have h2 : (a :: ls).filter (fun u => u ∉ processed) =
            ls.filter (fun u => u ∉ processed) := by
          rw [List.filter_cons]
          simp [hap]
        rw [h1, h2]
        exact hih
      · have h1 : (a :: ls).filter (fun u => u ∉ processed ++ [t]) =
            a :: ls.filter (fun u => u ∉ processed ++ [t]) := by
          rw [List.filter_cons]
          simp [hap, hat]
        have h2 : (a :: ls).filter (fun u => u ∉ processed) =
            a :: ls.filter (fun u => u ∉ processed) := by
          rw [List.filter_cons]
          simp [hap]
        rw [h1, h2, List.map_cons, List.sum_cons, List.map_cons, List.sum_cons]
        omega

theorem dijLoop_sound {depot : Depot} {start endT : String}
    (hWnn : ∀ u, ∀ e ∈ adjW depot u, 0 ≤ e.1) :
    ∀ (fuel : Nat) (heap : List (ℚ × String × List String))
      (vc : List (String × ℚ)) (processed : List String) (B : ℚ),
    DijInv depot start endT heap vc processed B →
    ∀ res, dijLoop depot endT fuel heap vc = some res →
    Walk depot start res.1 endT := by
  intro fuel
  induction fuel with
  | zero => intro heap vc processed B _ res h; simp [dijLoop] at h
  | succ fuel ih =>
    intro heap vc processed B hinv res h
    simp only [dijLoop] at h
    cases hp : popMin heap with
    | none => rw [hp] at h; simp at h
    | some pr =>
      obtain ⟨x, rest⟩ := pr
      obtain ⟨c, t, p⟩ := x
      rw [hp] at h
      dsimp only at h
      have hx : ((c, t, p) : ℚ × String × List String) ∈ heap :=
        ((popMin_spec hp).1).mem_iff.mpr (List.mem_cons_self _ _)
      obtain ⟨best, hlk, hble⟩ := hinv.keyed (c, t, p) hx
      rw [hlk] at h
      dsimp only at h
      by_cases hstale : best < c
      · rw [if_pos hstale] at h
        refine ih rest vc processed B (dij_inv_stale hinv hp ?_) res h
        intro b' hb'
        rw [hlk] at hb'
        injection hb' with hb''
        subst hb''
        exact hstale
      · rw [if_neg hstale] at h
        by_cases hte : t = endT
        · rw [if_pos hte] at h
          injection h with h'
          have hwk := hinv.walks (c, t, p) hx
          rw [← h']
          exact hte ▸ hwk
        · rw [if_neg hte] at h
          have hbc : best = c := le_antisymm hble (not_lt.mp hstale)
          have hbest : lookupA vc t = some c := by rw [hlk, hbc]
          exact ih _ _ _ c (dij_inv_expand hinv hp hbest hte (hWnn t)) res h

theorem dijLoop_not_none {depot : Depot} {start endT : String} {p0 : List String}
    (w0 : Walk depot start p0 endT)
    (hWnn : ∀ u, ∀ e ∈ adjW depot u, 0 ≤ e.1) :
    ∀ (fuel : Nat) (heap : List (ℚ × String × List String))
      (vc : List (String × ℚ)) (processed : List String) (B : ℚ),
    DijInv depot start endT heap vc processed B →
    dijPot depot heap processed < fuel →
    dijLoop depot endT fuel heap vc ≠ none := by
  intro fuel
  induction fuel with
  | zero => intro heap vc processed B _ hpot; omega
  | succ fuel ih =>
    intro heap vc processed B hinv hpot
    simp only [dijLoop]
    cases hp : popMin heap with
    | none =>
      exfalso
      have hheap : heap = [] := popMin_none_iff.mp hp
      subst hheap
      have hallp : ∀ k b, lookupA vc k = some b → k ∈ processed := by
        intro k b hk
        rcases hinv.cover k b hk with h | ⟨cp, hcp⟩
        · exact h
        · simp at hcp
      have hclosed : ∀ u, u ∈ processed → ∀ sw n, (sw, n) ∈ adj depot u →
          n ∈ processed := by
        intro u hu sw n hadj
        obtain ⟨b, hb⟩ := hinv.closedP u hu _ (adj_mem_adjW hadj)
        exact hallp n b hb
      obtain ⟨b, hb⟩ := hinv.skey
      have hstart : start ∈ processed := hallp start b hb
      exact hinv.endnp (walk_closed hclosed hstart w0)
    | some pr =>
      obtain ⟨x, rest⟩ := pr
      obtain ⟨c, t, p⟩ := x
      dsimp only
      have hx : ((c, t, p) : ℚ × String × List String) ∈ heap :=
        ((popMin_spec hp).1).mem_iff.mpr (List.mem_cons_self _ _)
      obtain ⟨best, hlk, hble⟩ := hinv.keyed (c, t, p) hx
      rw [hlk]
      dsimp only
      have hlen : rest.length + 1 = heap.length := by
        have := (popMin_spec hp).1.length_eq
        simp at this
        omega
      by_cases hstale : best < c
      · rw [if_pos hstale]
        refine ih rest vc processed B (dij_inv_stale hinv hp ?_) ?_
        · intro b' hb'
          rw [hlk] at hb'
          injection hb' with hb''
          subst hb''
          exact hstale
        · unfold dijPot at hpot ⊢
          omega
      · rw [if_neg hstale]
        have hbc : best = c := le_antisymm hble (not_lt.mp hstale)
        by_cases hte : t = endT
        · rw [if_pos hte]; simp
        · rw [if_neg hte]
          have hbest : lookupA vc t = some c := by rw [hlk, hbc]
          refine ih _ _ _ c (dij_inv_expand hinv hp hbest hte (hWnn t)) ?_
          obtain ⟨news, d1, -, -, -, -, -, -, -, -, -, d11⟩ :=
            dijPush_decomp c p (adjW depot t) rest vc (hWnn t)
          have htk : t ∈ graphKeys depot :=
            graphMem_iff_keys.mp (hinv.keysgraph t best hlk)
          have htnotp : t ∉ processed := by
            intro hc
            have := hinv.procmin t hc (c, t, p) hx rfl best hlk
            rw [hbc] at this
            exact lt_irrefl _ this
          have hsum := sum_deg_remove_aux depot (graphKeys depot) processed t
            (List.nodup_dedup _) htk htnotp
          unfold dijPot at hpot ⊢
          rw [d1]
          rw [List.length_append]
          omega

theorem dij_inv_init {depot : Depot} {start endT : String}
    (hs : graphMem depot start) :
    DijInv depot start endT [(0, start, [start])] [(start, 0)] [] 0 := by
  refine {
    walks := ?_, keyed := ?_, cover := ?_, procmin := ?_, distinct := ?_,
    procB := ?_, heapB := ?_, closedP := ?_, skey := ?_, keysgraph := ?_,
    pnodup := ?_, endnp := ?_ }
  · intro ent h
    rw [List.mem_singleton] at h
    subst h
    exact Walk.refl start
  · intro ent h
    rw [List.mem_singleton] at h
    subst h
    exact ⟨0, by simp [lookupA], le_refl 0⟩
  · intro k b hk
    by_cases hks : start = k
    · subst hks
      simp [lookupA] at hk
      subst hk
      exact Or.inr ⟨[start], by simp⟩
    · simp [lookupA, hks] at hk
  · intro u hu; simp at hu
  · intro k
    by_cases h : start = k
    · subst h; simp
    · simp [h]
  · intro u hu; simp at hu
  · intro ent h
    rw [List.mem_singleton] at h
    subst h
    exact le_refl 0
  · intro u hu; simp at hu
  · exact ⟨0, by simp [lookupA]⟩
  · intro k b hk
    by_cases hks : start = k
    · subst hks; exact hs
    · simp [lookupA, hks] at hk
  · simp
  · simp

/-- C8: for every depot layout with nonnegative track distances and every pair
of start and end track ids, both `find_path` and `find_efficient_path` return
None exactly when the start or end track is absent from the constructed graph
or no connecting path exists; on success they never return None. -/
theorem pathfinding_none_iff (depot : Depot) (s e : String)
    (hd : ∀ tr ∈ depot.tracks, ∀ dm, tr.distance_metres = some dm → 0 ≤ dm) :
    (find_path depot s e = none ↔
      (¬ graphMem depot s ∨ ¬ graphMem depot e ∨ ¬ ∃ p, Walk depot s p e)) ∧
    (find_efficient_path depot s e = none ↔
      (¬ graphMem depot s ∨ ¬ graphMem depot e ∨ ¬ ∃ p, Walk depot s p e)) := by
  refine ⟨find_path_none_iff depot s e, ?_⟩
  have hWnn : ∀ u, ∀ ed ∈ adjW depot u, 0 ≤ ed.1 := fun u ed hed =>
    adjW_cost_nonneg hd hed
  unfold find_efficient_path
  by_cases hmem : graphMem depot s ∧ graphMem depot e
  · rw [if_pos hmem]
    constructor
    · intro hnone
      refine Or.inr (Or.inr ?_)
      rintro ⟨p0, w0⟩
      refine dijLoop_not_none w0 hWnn _ _ _ _ 0 (dij_inv_init hmem.1) ?_ hnone
      unfold dijPot dijFuel
      have hfil : (graphKeys depot).filter (fun u => u ∉ ([] : List String)) =
          graphKeys depot := by simp
      rw [hfil]
      simp only [List.length_singleton]
      omega
    · intro h
      rcases h with h | h | h
      · exact absurd hmem.1 h
      · exact absurd hmem.2 h
      · cases hres : dijLoop depot e (dijFuel depot) [(0, s, [s])] [(s, 0)] with
        | none => rfl
        | some res =>
          exact absurd ⟨res.1,
            dijLoop_sound hWnn _ _ _ _ 0 (dij_inv_init hmem.1) res hres⟩ h
  · rw [if_neg hmem]
    constructor
    · intro _
      rcases not_and_or.mp hmem with h | h
      · exact Or.inl h
      · exact Or.inr (Or.inl h)
    · intro _; rfl

/-- Witness for C8 on the demo depot: track Z is absent, so both pathfinders
return None for the route A to Z. -/
theorem pathfinding_none_iff_witness :
    find_path demoDepot "A" "Z" = none ∧
    find_efficient_path demoDepot "A" "Z" = none := by
  have hd : ∀ tr ∈ demoDepot.tracks, ∀ dm, tr.distance_metres = some dm → 0 ≤ dm := by
    intro tr htr dm hdm
    fin_cases htr <;> (injection hdm with h; subst h) <;> norm_num
  have h := pathfinding_none_iff demoDepot "A" "Z" hd
  exact ⟨h.1.mpr (Or.inr (Or.inl (by decide))),
    h.2.mpr (Or.inr (Or.inl (by decide)))⟩
